import Mathlib

/-!
Verification development for the tamc PT-ICM Ising solver (src/ising.rs, src/lib.rs).

Modelling conventions:
* `Spin` (`i8` in the source) is modelled as `ℤ`; spin vectors are `List ℤ`.
* `f32` energies, biases and couplings are modelled as exact rationals `ℚ`
  (the spec waives f32 round-off for the energy identities), except in the
  β-ladder optimizer `pt_optimize_beta`, whose transcendental operations
  (sqrt, exp, ln, log10) are modelled over `ℝ`.
* Unchecked accesses (`get_unchecked`, `uget`) become `List.getD` with a
  default; every claim supplies the shape hypotheses that make the default
  unreachable, mirroring the "caller guarantees i < N" contract.
* File readers living in crate::util (not under src/) are modelled from the
  spec; each such definition carries a doc comment starting
  "Modelled from the spec:".
-/

namespace Tamc

/-- Spin type: `pub type Spin = i8` modelled as `ℤ`. -/
abbrev Spin := ℤ

/-- `IsingState` (src/ising.rs): spin array with cached energy and a validity
flag for the cache. -/
structure IsingState where
  arr : List Spin
  energy : ℚ
  energy_init : Bool
deriving Repr, DecidableEq, Inhabited

/-- `IsingState::uset_neg`: negate the spin at `index` in place. -/
def IsingState.uset_neg (s : IsingState) (index : ℕ) : IsingState :=
  { s with arr := s.arr.set index (-(s.arr.getD index 0)) }

/-- `IsingState::overlap`: dot product of two spin arrays (the source uses
`zip_eq`, which requires equal lengths; claims only use equal lengths). -/
def IsingState.overlap (s other : IsingState) : ℤ :=
  (List.zipWith (· * ·) s.arr other.arr).sum

/-- `BqmIsingInstance` (src/ising.rs): offset, biases, couplings both as a
sparse matrix (modelled by its triplet list, in insertion order) and as
per-row adjacency lists, plus optional susceptibility coefficient rows. -/
structure BqmIsingInstance where
  offset : ℚ
  bias : List ℚ
  coupling : List (ℕ × ℕ × ℚ)
  coupling_vecs : List (List (ℕ × ℚ))
  suscept_coefs : List (List ℚ)
deriving Repr, DecidableEq, Inhabited

/-- Modelled from the spec: `read_adjacency_list_from_file` (crate::util, not
under src/). Spec section 6: each line "i j K" defines J_ij = J_ji = K for
i ≠ j (an entry (j,K) in row i and an entry (i,K) in row j), or h_i = K for
i = j (a single entry (i,K) in row i); the loader yields per-row
(neighbor, K) lists. The input is the parsed list of (i, j, K) lines. -/
def read_adjacency_list_from_file (lines : List (ℕ × ℕ × ℚ)) : List (List (ℕ × ℚ)) :=
  let n : ℕ := if lines = [] then 0
    else ((lines.map (fun t => max t.1 t.2.1)).foldr max 0) + 1
  (List.range n).map (fun i =>
    lines.filterMap (fun t =>
      if t.1 = i then some (t.2.1, t.2.2)
      else if t.2.1 = i ∧ t.1 ≠ t.2.1 then some (t.1, t.2.2)
      else none))

/-- `BqmIsingInstance::from_instance_file` (src/ising.rs:249).
The file is represented by its parsed (i, j, K) lines; the adjacency list is
produced by the spec-modelled loader. The fold mirrors the source loop over
rows i and entries (j, K), with the QUBO conversion branch. -/
def BqmIsingInstance.from_instance_file (lines : List (ℕ × ℕ × ℚ)) (qubo : Bool) :
    BqmIsingInstance :=
  let adj_list := read_adjacency_list_from_file lines
  let n := adj_list.length
  let init : ℚ × List (ℕ × ℕ × ℚ) × List (List (ℕ × ℚ)) × List ℚ :=
    (0, [], List.replicate n [], List.replicate n 0)
  let res := (List.range n).foldl (fun st i =>
    (adj_list.getD i []).foldl
      (fun (st : ℚ × List (ℕ × ℕ × ℚ) × List (List (ℕ × ℚ)) × List ℚ) jk =>
        let offset := st.1
        let tri := st.2.1
        let cvecs := st.2.2.1
        let bias := st.2.2.2
        let j := jk.1
        let K := jk.2
        if qubo then
          if i ≠ j then
            (offset + K / 8, tri ++ [(i, j, K / 4)],
             cvecs.set i (cvecs.getD i [] ++ [(j, K / 4)]),
             bias.set i (bias.getD i 0 + K / 4))
          else
            (offset + K / 2, tri,
             cvecs.set i (cvecs.getD i [] ++ [(j, K / 2)]),
             bias.set i (bias.getD i 0 + K / 2))
        else
          if i ≠ j then
            (offset, tri ++ [(i, j, K)],
             cvecs.set i (cvecs.getD i [] ++ [(j, K)]), bias)
          else
            (offset, tri, cvecs, bias.set i K))
      st) init
  { offset := res.1, coupling := res.2.1, coupling_vecs := res.2.2.1,
    bias := res.2.2.2, suscept_coefs := [] }

/-- `BqmIsingInstance::with_suscept` (src/ising.rs:288). Reading each file
(`read_txt_vec`, crate::util, not under src/) is modelled from the spec: a
susceptibility file is its parsed list of coefficients. Returns the updated
instance together with the warnings printed (the source only prints a
warning on a length mismatch; the push below is unconditional, exactly as in
the source). -/
def BqmIsingInstance.with_suscept (self : BqmIsingInstance)
    (suscept_files : List (List ℚ)) : BqmIsingInstance × List String :=
  suscept_files.foldl
    (fun (mw : BqmIsingInstance × List String) dvec =>
      let me := mw.1
      let n1 := dvec.length
      let n2 := me.bias.length
      let warns := if n1 ≠ n2 then
          mw.2 ++ ["WARNING: Ignoring suscept file"] else mw.2
      ({ me with suscept_coefs := me.suscept_coefs ++ [dvec] }, warns))
    (self, [])

/-- `Instance::energy_ref for BqmIsingInstance` (src/ising.rs:325): iterate
rows of `coupling_vecs` zipped with 0.., accumulate
(bias_i + sum of (K * s_j) / 2) * s_i on top of the offset. -/
def BqmIsingInstance.energy_ref (inst : BqmIsingInstance) (state : IsingState) : ℚ :=
  inst.offset +
    ((List.range inst.coupling_vecs.length).map (fun i =>
      let row := inst.coupling_vecs.getD i []
      let si : ℚ := ((state.arr.getD i 0 : ℤ) : ℚ)
      let h : ℚ := inst.bias.getD i 0 +
        (row.map (fun p => (p.2 * ((state.arr.getD p.1 0 : ℤ) : ℚ)) / 2)).sum
      h * si)).sum

/-- `Instance::energy for BqmIsingInstance` (src/ising.rs:342): value of the
cached energy, recomputed via `energy_ref` when the cache flag is unset. -/
def BqmIsingInstance.energyVal (inst : BqmIsingInstance) (state : IsingState) : ℚ :=
  if state.energy_init then state.energy else inst.energy_ref state

/-- `Instance::delta_energy for BqmIsingInstance` (src/ising.rs:355):
(bias_i + sum over row i of K * s_j) * (−2 * s_i). -/
def BqmIsingInstance.delta_energy (inst : BqmIsingInstance) (state : IsingState)
    (mv : ℕ) : ℚ :=
  let i := mv
  let row := inst.coupling_vecs.getD i []
  let de : ℚ := inst.bias.getD i 0 +
    (row.map (fun p => p.2 * ((state.arr.getD p.1 0 : ℤ) : ℚ))).sum
  de * (-2 * ((state.arr.getD i 0 : ℤ) : ℚ))

/-- Effective coupling matrix of the adjacency lists: the sum of the K values
of all entries with neighbor index j in row i. -/
def BqmIsingInstance.Jmat (inst : BqmIsingInstance) (i j : ℕ) : ℚ :=
  (((inst.coupling_vecs.getD i []).filter (fun p => p.1 == j)).map (fun p => p.2)).sum

/-- C1: in QUBO mode the file whose single line is "0 0 4" loads to
offset = 2 and h₀ = 2, but the code ALSO pushes the self-coupling entry
(0, 2) into the adjacency list (src/ising.rs:273), so the coupling list is
not empty and `energy_ref` returns 5 (not 4) at s₀ = +1 and 1 (not 0) at
s₀ = −1: the diagonal push adds the constant K/4 = 1 to every energy,
contradicting the QUBO conversion rule stated in the spec. -/
theorem C1_qubo_single_diagonal_line :
    (BqmIsingInstance.from_instance_file [(0, 0, 4)] true).offset = 2 ∧
    (BqmIsingInstance.from_instance_file [(0, 0, 4)] true).bias = [2] ∧
    (BqmIsingInstance.from_instance_file [(0, 0, 4)] true).coupling = [] ∧
    (BqmIsingInstance.from_instance_file [(0, 0, 4)] true).coupling_vecs = [[(0, 2)]] ∧
    (BqmIsingInstance.from_instance_file [(0, 0, 4)] true).energy_ref ⟨[1], 0, false⟩ = 5 ∧
    (BqmIsingInstance.from_instance_file [(0, 0, 4)] true).energy_ref ⟨[-1], 0, false⟩ = 1 := by
  refine ⟨?_, ?_, ?_, ?_, ?_, ?_⟩ <;>
    norm_num [BqmIsingInstance.from_instance_file, read_adjacency_list_from_file,
      BqmIsingInstance.energy_ref, List.filterMap, List.range_succ]

/-- C3: a susceptibility file whose length differs from N is NOT skipped:
`with_suscept` prints the warning but pushes the mismatched vector anyway
(the push at src/ising.rs:300 is outside the if), so `suscept_coefs` differs
from the no-file run. Here N = 1 and the file has 2 coefficients. -/
theorem C3_wrong_length_suscept_file_not_skipped :
    (((⟨0, [0], [], [[]], []⟩ : BqmIsingInstance).with_suscept [[1, 2]]).1.suscept_coefs
        = [[1, 2]] ∧
     ((⟨0, [0], [], [[]], []⟩ : BqmIsingInstance).with_suscept [[1, 2]]).2 ≠ [] ∧
     ((⟨0, [0], [], [[]], []⟩ : BqmIsingInstance).with_suscept []).1.suscept_coefs = []) := by
  refine ⟨?_, ?_, ?_⟩ <;> norm_num [BqmIsingInstance.with_suscept]

/-! ### Houdayer cluster move (src/ising.rs:375) -/

/-- `BqmIsingInstance::to_csr_graph` (src/ising.rs:305): the CSR connectivity
graph of the coupling matrix, modelled as the neighbor-list function of its
edge (triplet) list. `PtIcmRunner::new` builds the same graph inline. -/
def BqmIsingInstance.to_csr_graph (inst : BqmIsingInstance) : ℕ → List ℕ :=
  fun v => ((inst.coupling.filter (fun t => t.1 == v)).map (fun t => t.2.1))

/-- Breadth-first search over `adj` restricted to nodes satisfying `ok`
(petgraph `Bfs` over the `NodeFiltered` graph), with explicit fuel; returns
the list of discovered nodes. -/
def bfsReach (adj : ℕ → List ℕ) (ok : ℕ → Bool) :
    ℕ → List ℕ → List ℕ → List ℕ
  | 0, _, visited => visited
  | _ + 1, [], visited => visited
  | fuel + 1, x :: queue, visited =>
      let nbrs := (adj x).filter (fun y => ok y && !(visited.contains y))
      bfsReach adj ok fuel (queue ++ nbrs) (visited ++ nbrs)

/-- `houdayer_cluster_move` (src/ising.rs:375). The RNG is modelled by
`rpick`: the seed choice `idxs.choose(rng)` becomes `idxs.get?` at
`rpick % idxs.length`, which is `none` exactly when `idxs` is empty, as in
the source. On the cluster the two spin arrays are swapped index by index
and both energy caches are invalidated. -/
def houdayer_cluster_move (replica1 replica2 : IsingState) (graph : ℕ → List ℕ)
    (rpick : ℕ) : Option (List ℕ) × IsingState × IsingState :=
  let overlap := List.zipWith (· * ·) replica1.arr replica2.arr
  let idxs := (overlap.enum.filter (fun p => decide (p.2 < 0))).map Prod.fst
  match idxs.get? (rpick % idxs.length) with
  | none => (none, replica1, replica2)
  | some init_spin =>
      let ok : ℕ → Bool := fun v => decide (overlap.getD v 0 < 0)
      let nodes := bfsReach graph ok (overlap.length * overlap.length + 1)
        [init_spin] [init_spin]
      let swapped := nodes.foldl
        (fun (p : List Spin × List Spin) i =>
          (p.1.set i (p.2.getD i 0), p.2.set i (p.1.getD i 0)))
        (replica1.arr, replica2.arr)
      (some nodes,
       { replica1 with arr := swapped.1, energy_init := false },
       { replica2 with arr := swapped.2, energy_init := false })

lemma zipWith_mul_self_nonneg (a : List Spin) :
    ∀ x ∈ List.zipWith (· * ·) a a, 0 ≤ x := by
  induction a with
  | nil => intro x hx; simp at hx
  | cons y t ih =>
      intro x hx
      rcases (List.mem_cons).1 hx with h | h
      · exact h ▸ mul_self_nonneg y
      · exact ih x h

lemma enumFrom_filter_neg_eq_nil (l : List ℤ) (h : ∀ x ∈ l, 0 ≤ x) :
    ∀ k, (l.enumFrom k).filter (fun p => decide (p.2 < 0)) = [] := by
  induction l with
  | nil => intro k; rfl
  | cons y t ih =>
      intro k
      have hy : ¬ (y < 0) := not_lt.2 (h y (List.mem_cons_self y t))
      simp only [List.enumFrom, List.filter]
      rw [decide_eq_false hy]
      exact ih (fun x hx => h x (List.mem_cons_of_mem y hx)) (k + 1)

/-- C7: when the two replicas agree element-wise the overlap has no −1
entry, so `houdayer_cluster_move` returns none and leaves both states (spin
arrays and energy caches) untouched. -/
theorem C7_houdayer_noop (r1 r2 : IsingState) (g : ℕ → List ℕ) (rpick : ℕ)
    (h : r1.arr = r2.arr) :
    houdayer_cluster_move r1 r2 g rpick = (none, r1, r2) := by
  have hfil : (List.zipWith (· * ·) r1.arr r2.arr).enum.filter
      (fun p => decide (p.2 < 0)) = [] := by
    rw [← h]
    exact enumFrom_filter_neg_eq_nil _ (zipWith_mul_self_nonneg r1.arr) 0
  simp only [houdayer_cluster_move, hfil, List.map_nil, List.length_nil,
    Nat.mod_zero, List.get?_nil]

/-- C7 witness: the no-op on a concrete pair of equal two-spin states. -/
theorem C7_houdayer_noop_witness :
    houdayer_cluster_move ⟨[1, -1], 3, true⟩ ⟨[1, -1], 3, true⟩
      (fun _ => [0, 1]) 5 = (none, ⟨[1, -1], 3, true⟩, ⟨[1, -1], 3, true⟩) :=
  C7_houdayer_noop ⟨[1, -1], 3, true⟩ ⟨[1, -1], 3, true⟩ (fun _ => [0, 1]) 5 rfl

/-! ### PT-ICM runner construction and ICM chain pairing (src/ising.rs:658, 847) -/

/-- `tamc_core::pt::PTState`: only the `states` field is used by the code
under src/; the PT bookkeeping fields (acceptance counts, diffusion
histogram, round-trip tags) live in tamc_core, outside this repository. -/
structure PTState where
  states : List IsingState
deriving Repr, DecidableEq, Inhabited

/-- `PtIcmParams` (src/ising.rs:613). `beta` holds the resolved β array
(`BetaOptions::Arr`); the geometric schedule variant resolves through
tamc_core code outside src/ and is not needed by any claim. -/
structure PtIcmParams where
  num_sweeps : ℕ
  warmup_fraction : ℚ
  beta : List ℚ
  lo_beta : ℚ
  icm : Bool
  num_replica_chains : ℕ
  threads : ℕ
  sample : Option ℕ
  sample_states : Option ℕ
  sample_limiting : Option ℕ
deriving Repr, DecidableEq, Inhabited

/-- `PtIcmRunner` (src/ising.rs:650). -/
structure PtIcmRunner where
  params : PtIcmParams
  inst : BqmIsingInstance
  g : ℕ → List ℕ
  beta_vec : List ℚ
  meas_init : ℕ
  lo_beta_idx : ℕ
deriving Inhabited

/-- `PtIcmRunner::new` (src/ising.rs:659). The panic on a decreasing β array
becomes `none`; `List.Chain'` of ≤ is exactly the check that all adjacent
differences are nonnegative. `lo_beta_idx` is the first index with
β ≥ lo_beta, or the last index when none exists. `meas_init` is
warmup_fraction · num_sweeps truncated toward zero (the `as u32` cast). -/
def PtIcmRunner.new (inst : BqmIsingInstance) (params : PtIcmParams) :
    Option PtIcmRunner :=
  let beta_vec := params.beta
  let num_betas := beta_vec.length
  if List.Chain' (· ≤ ·) beta_vec then
    let lo_beta_idx :=
      match beta_vec.enum.find? (fun p => decide (params.lo_beta ≤ p.2)) with
      | none => num_betas - 1
      | some p => p.1
    let meas_init := (⌊params.warmup_fraction * (params.num_sweeps : ℚ)⌋).toNat
    some { params := params, inst := inst, g := inst.to_csr_graph,
           beta_vec := beta_vec, meas_init := meas_init, lo_beta_idx := lo_beta_idx }
  else none

/-- One ICM chain pair (the body of the `chunks_exact_mut(2)` loop in
`apply_icm`): apply `houdayer_cluster_move` to the zipped states of the two
chains from index `lo_beta_idx` on, threading the RNG stream `rngs` from
position `base`. -/
def icmPair (g : ℕ → List ℕ) (lo : ℕ) (rngs : ℕ → ℕ) (base : ℕ)
    (c0 c1 : PTState) : PTState × PTState × List (Option (List ℕ)) :=
  let z := (c0.states.drop lo).zip (c1.states.drop lo)
  let res := z.foldl
    (fun (acc : List IsingState × List IsingState × List (Option (List ℕ))) p =>
      let k := acc.2.2.length
      let r := houdayer_cluster_move p.1 p.2 g (rngs (base + k))
      (acc.1 ++ [r.2.1], acc.2.1 ++ [r.2.2], acc.2.2 ++ [r.1]))
    ([], [], [])
  (⟨c0.states.take lo ++ res.1 ++ c0.states.drop (lo + z.length)⟩,
   ⟨c1.states.take lo ++ res.2.1 ++ c1.states.drop (lo + z.length)⟩,
   res.2.2)

/-- `chunks_exact_mut(2)` over the chain list: pairs (0,1), (2,3), … are
processed; a trailing odd chain is returned unchanged (the chunks iterator
simply never yields it). -/
def icmChunks (g : ℕ → List ℕ) (lo : ℕ) (rngs : ℕ → ℕ) :
    ℕ → List PTState → List PTState × List (Option (List ℕ))
  | _, [] => ([], [])
  | _, [c] => ([c], [])
  | base, c0 :: c1 :: rest =>
      let pr := icmPair g lo rngs base c0 c1
      let nxt := icmChunks g lo rngs (base + pr.2.2.length) rest
      (pr.1 :: pr.2.1 :: nxt.1, pr.2.2 ++ nxt.2)

/-- `PtIcmRunner::apply_icm` (src/ising.rs:847). -/
def PtIcmRunner.apply_icm (r : PtIcmRunner) (pt_state : List PTState)
    (rngs : ℕ → ℕ) : List PTState × List (Option (List ℕ)) :=
  if r.params.icm then icmChunks r.g r.lo_beta_idx rngs 0 pt_state
  else (pt_state, [])

lemma icmChunks_shape (g : ℕ → List ℕ) (lo : ℕ) (rngs : ℕ → ℕ) :
    ∀ n (l : List PTState), l.length ≤ n → ∀ base,
      (icmChunks g lo rngs base l).1.length = l.length ∧
      (l.length % 2 = 1 →
        (icmChunks g lo rngs base l).1.getLast? = l.getLast?) := by
  intro n
  induction n with
  | zero =>
      intro l hl base
      have : l = [] := List.length_eq_zero.1 (Nat.le_zero.1 hl)
      subst this
      exact ⟨rfl, fun h => by simp at h⟩
  | succ n ih =>
      intro l hl base
      match l with
      | [] => exact ⟨rfl, fun h => by simp at h⟩
      | [c] => exact ⟨rfl, fun _ => rfl⟩
      | c0 :: c1 :: rest =>
          have hrest : rest.length ≤ n := by
            have := hl
            simp only [List.length_cons] at this
            omega
          have hres := ih rest hrest
            (base + (icmPair g lo rngs base c0 c1).2.2.length)
          constructor
          · simp only [icmChunks, List.length_cons, (hres).1]
          · intro hodd
            simp only [List.length_cons] at hodd
            have hrodd : rest.length % 2 = 1 := by omega
            have hrne : rest ≠ [] := by
              intro hc; rw [hc] at hrodd; simp at hrodd
            have hlast := (hres).2 hrodd
            have hne2 : (icmChunks g lo rngs
                (base + (icmPair g lo rngs base c0 c1).2.2.length) rest).1 ≠ [] := by
              intro hc
              have := (hres).1
              rw [hc] at this
              exact hrne (List.length_eq_zero.1 this.symm)
            obtain ⟨m0, M, hM⟩ := List.exists_cons_of_ne_nil hne2
            obtain ⟨r0, R, hR⟩ := List.exists_cons_of_ne_nil hrne
            simp only [icmChunks]
            have h1 : ((icmPair g lo rngs base c0 c1).2.1 ::
                (icmChunks g lo rngs (base + (icmPair g lo rngs base c0 c1).2.2.length)
                  rest).1).getLast?
                = (icmChunks g lo rngs
                    (base + (icmPair g lo rngs base c0 c1).2.2.length) rest).1.getLast? := by
              rw [hM]; exact List.getLast?_cons_cons
            simp only [List.getLast?_cons_cons]
            rw [h1, hlast, hR]
            simp only [List.getLast?_cons_cons]

/-- C4 counterexample: with icm = true and an odd number of replica chains
(M = 3) the runner is constructed without any fatal error. -/
theorem C4_counterexample_no_fatal_error :
    (PtIcmRunner.new ⟨0, [], [], [], []⟩
      ⟨8, 1/2, [1, 2], 1, true, 3, 1, none, none, none⟩).isSome = true := by
  rw [PtIcmRunner.new]
  rw [if_pos]
  · rfl
  · simp only [List.chain'_cons, List.chain'_singleton, and_true]
    norm_num

/-- C4 amended: when icm = true and the number of replica chains is odd, no
fatal error occurs: the runner is constructed normally (only a decreasing β
array panics), and `apply_icm` pairs chains (0,1), (2,3), …, silently
leaving the final chain unpaired and unchanged. -/
theorem C4_odd_chains_amended (inst : BqmIsingInstance) (params : PtIcmParams)
    (pt_state : List PTState) (rngs : ℕ → ℕ)
    (hicm : params.icm = true)
    (hodd : params.num_replica_chains % 2 = 1)
    (hmono : List.Chain' (· ≤ ·) params.beta)
    (hlen : pt_state.length % 2 = 1) :
    (PtIcmRunner.new inst params).isSome = true ∧
    (((PtIcmRunner.new inst params).getD default).apply_icm pt_state rngs).1.length
      = pt_state.length ∧
    (((PtIcmRunner.new inst params).getD default).apply_icm pt_state rngs).1.getLast?
      = pt_state.getLast? := by
  rw [PtIcmRunner.new, if_pos hmono]
  refine ⟨rfl, ?_, ?_⟩ <;>
  · simp only [Option.getD_some, PtIcmRunner.apply_icm, hicm, if_true]
    have := icmChunks_shape (inst.to_csr_graph)
      (match params.beta.enum.find? (fun p => decide (params.lo_beta ≤ p.2)) with
        | none => params.beta.length - 1
        | some p => p.1) rngs pt_state.length pt_state (le_refl _) 0
    first
      | exact this.1
      | exact this.2 hlen

/-- C4 witness for the amended claim: concrete instance, parameters with
icm = true and M = 3, and a concrete odd chain list. -/
theorem C4_odd_chains_amended_witness :
    (PtIcmRunner.new ⟨0, [0], [], [[]], []⟩
        ⟨8, 1/2, [1, 2], 1, true, 3, 1, none, none, none⟩).isSome = true ∧
    (((PtIcmRunner.new ⟨0, [0], [], [[]], []⟩
        ⟨8, 1/2, [1, 2], 1, true, 3, 1, none, none, none⟩).getD default).apply_icm
          [⟨[⟨[1], 0, true⟩]⟩, ⟨[⟨[-1], 0, true⟩]⟩, ⟨[⟨[1], 2, true⟩]⟩]
          (fun _ => 0)).1.length = 3 ∧
    (((PtIcmRunner.new ⟨0, [0], [], [[]], []⟩
        ⟨8, 1/2, [1, 2], 1, true, 3, 1, none, none, none⟩).getD default).apply_icm
          [⟨[⟨[1], 0, true⟩]⟩, ⟨[⟨[-1], 0, true⟩]⟩, ⟨[⟨[1], 2, true⟩]⟩]
          (fun _ => 0)).1.getLast? = some ⟨[⟨[1], 2, true⟩]⟩ :=
  C4_odd_chains_amended ⟨0, [0], [], [[]], []⟩
    ⟨8, 1/2, [1, 2], 1, true, 3, 1, none, none, none⟩
    [⟨[⟨[1], 0, true⟩]⟩, ⟨[⟨[-1], 0, true⟩]⟩, ⟨[⟨[1], 2, true⟩]⟩]
    (fun _ => 0) rfl (by decide)
    (by simp only [List.chain'_cons, List.chain'_singleton, and_true]; norm_num)
    (by decide)

/-! ### Bit packing: as_bytes and as_u64_vec (src/ising.rs:90, 106) -/

/-- Number of packed words: `n / w + (if n % w == 0 { 0 } else { 1 })`. -/
def numWords (wsize n : ℕ) : ℕ := n / wsize + (if n % wsize = 0 then 0 else 1)

/-- One iteration of the packing loop: `bytes[i / w] |= (si > 0 ? 0 : 1 << (i % w))`. -/
def packStep (wsize : ℕ) (ws : List ℕ) (p : ℕ × Spin) : List ℕ :=
  ws.set (p.1 / wsize)
    ((ws.getD (p.1 / wsize) 0) ||| (if p.2 > 0 then 0 else 1 <<< (p.1 % wsize)))

/-- The packing loop of `as_bytes` / `as_u64_vec`, over a general word size. -/
def packWords (wsize : ℕ) (arr : List Spin) : List ℕ :=
  arr.enum.foldl (packStep wsize) (List.replicate (numWords wsize arr.length) 0)

/-- `IsingState::as_bytes` (src/ising.rs:90): 8 spins per byte, +1 → 0,
−1 → 1, least significant bit = lowest index. -/
def IsingState.as_bytes (s : IsingState) : List ℕ := packWords 8 s.arr

/-- `IsingState::as_u64_vec` (src/ising.rs:106): 64 spins per word. -/
def IsingState.as_u64_vec (s : IsingState) : List ℕ := packWords 64 s.arr

/-- Decoder given by the documented convention: bit k of word w is spin
index w·wsize + k; bit 0 ↦ +1, bit 1 ↦ −1. -/
def decodeWords (wsize : ℕ) (words : List ℕ) (n : ℕ) : List Spin :=
  (List.range n).map (fun i =>
    if (words.getD (i / wsize) 0).testBit (i % wsize) then -1 else 1)

lemma getD_set_self {α : Type} (l : List α) (a : ℕ) (v d : α) (ha : a < l.length) :
    (l.set a v).getD a d = v := by
  simp [List.getD_eq_getElem?_getD, List.getElem?_set_self ha]

lemma getD_set_ne {α : Type} (l : List α) (a w : ℕ) (v d : α) (h : a ≠ w) :
    (l.set a v).getD w d = l.getD w d := by
  simp [List.getD_eq_getElem?_getD, List.getElem?_set_ne h]

lemma le_numWords_mul (wsize n : ℕ) (hw : 0 < wsize) :
    n ≤ numWords wsize n * wsize := by
  have hd := Nat.div_add_mod n wsize
  have hmlt := Nat.mod_lt n hw
  unfold numWords
  by_cases h : n % wsize = 0
  · rw [h, if_pos rfl, Nat.add_zero, Nat.mul_comm]
    omega
  · rw [if_neg h, Nat.add_mul, Nat.one_mul, Nat.mul_comm]
    omega

lemma div_lt_of_lt_mul_words {m len wsize : ℕ} (hw : 0 < wsize)
    (h : m < len * wsize) : m / wsize < len :=
  (Nat.div_lt_iff_lt_mul hw).2 (by rw [Nat.mul_comm] at h ⊢; exact h)

lemma idx_ne_of_ne_div {w m k wsize : ℕ} (hw : 0 < wsize) (hk : k < wsize)
    (hne : w ≠ m / wsize) : w * wsize + k ≠ m := by
  intro hc
  apply hne
  have : (w * wsize + k) / wsize = w := by
    rw [Nat.mul_comm w wsize, Nat.mul_add_div hw, Nat.div_eq_of_lt hk, Nat.add_zero]
  rw [← hc, this]

lemma idx_eq_iff_mod {m k wsize : ℕ} (hk : k < wsize) :
    (m / wsize) * wsize + k = m ↔ k = m % wsize := by
  have hd := Nat.div_add_mod m wsize
  constructor
  · intro h
    have : wsize * (m / wsize) + k = m := by rw [Nat.mul_comm]; exact h
    omega
  · intro h
    rw [h, Nat.mul_comm]
    exact hd

lemma packFold_inv (wsize : ℕ) (hw : 0 < wsize) (cond : ℕ → Bool) :
    ∀ (t : List Spin) (m : ℕ) (ws : List ℕ),
      (∀ j, j < t.length → cond (m + j) = decide (t.getD j 0 ≤ 0)) →
      (∀ w, w < ws.length → ws.getD w 0 < 2 ^ wsize ∧
        ∀ k, k < wsize → (ws.getD w 0).testBit k
          = (decide (w * wsize + k < m) && cond (w * wsize + k))) →
      m + t.length ≤ ws.length * wsize →
      ((t.enumFrom m).foldl (packStep wsize) ws).length = ws.length ∧
      ∀ w, w < ws.length →
        ((t.enumFrom m).foldl (packStep wsize) ws).getD w 0 < 2 ^ wsize ∧
        ∀ k, k < wsize → (((t.enumFrom m).foldl (packStep wsize) ws).getD w 0).testBit k
          = (decide (w * wsize + k < m + t.length) && cond (w * wsize + k)) := by
  intro t
  induction t with
  | nil =>
      intro m ws _ hinv _
      constructor
      · rfl
      · intro w hwl
        have := hinv w hwl
        simpa using this
  | cons s t' ih =>
      intro m ws hlink hinv hbound
      have hlen' : (packStep wsize ws (m, s)).length = ws.length := by
        simp [packStep]
      have hm_lt : m < ws.length * wsize := by
        simp only [List.length_cons] at hbound
        omega
      have w0_lt : m / wsize < ws.length := div_lt_of_lt_mul_words hw hm_lt
      have hcondm : cond m = decide (s ≤ 0) := by
        have := hlink 0 (by simp)
        simpa using this
      have hinv' : ∀ w, w < (packStep wsize ws (m, s)).length →
          (packStep wsize ws (m, s)).getD w 0 < 2 ^ wsize ∧
          ∀ k, k < wsize → ((packStep wsize ws (m, s)).getD w 0).testBit k
            = (decide (w * wsize + k < m + 1) && cond (w * wsize + k)) := by
        intro w hwlen
        rw [hlen'] at hwlen
        by_cases hww : w = m / wsize
        · subst hww
          have hget : (packStep wsize ws (m, s)).getD (m / wsize) 0
              = (ws.getD (m / wsize) 0) |||
                (if s > 0 then 0 else 1 <<< (m % wsize)) := by
            simp only [packStep]
            exact getD_set_self _ _ _ _ w0_lt
          have hbitlt : (if s > 0 then 0 else 1 <<< (m % wsize)) < 2 ^ wsize := by
            by_cases hs : s > 0
            · rw [if_pos hs]; exact Nat.pos_pow_of_pos wsize (by omega)
            · rw [if_neg hs, Nat.one_shiftLeft]
              exact Nat.pow_lt_pow_right one_lt_two (Nat.mod_lt m hw)
          refine ⟨?_, ?_⟩
          · rw [hget]
            exact Nat.or_lt_two_pow (hinv _ w0_lt).1 hbitlt
          · intro k hk
            rw [hget, Nat.testBit_or, (hinv _ w0_lt).2 k hk]
            by_cases hkm : k = m % wsize
            · have hidx : (m / wsize) * wsize + k = m := (idx_eq_iff_mod hk).2 hkm
              rw [hidx, hcondm]
              by_cases hs : s > 0
              · rw [if_pos hs]
                simp only [Nat.zero_testBit, Bool.or_false]
                have h1 : decide (m < m) = false := decide_eq_false (by omega)
                have h2 : decide (s ≤ 0) = false := decide_eq_false (not_le.2 hs)
                rw [h1, h2]
                simp
              · rw [if_neg hs, Nat.one_shiftLeft, Nat.testBit_two_pow]
                have h1 : decide (m % wsize = k) = true := decide_eq_true hkm.symm
                have h2 : decide (s ≤ 0) = true := decide_eq_true (not_lt.1 hs)
                have h3 : decide (m < m + 1) = true := decide_eq_true (by omega)
                rw [h1, h2, h3]
                simp
            · have hidx : (m / wsize) * wsize + k ≠ m := by
                intro hc; exact hkm ((idx_eq_iff_mod hk).1 hc)
              have harith : decide ((m / wsize) * wsize + k < m + 1)
                  = decide ((m / wsize) * wsize + k < m) :=
                decide_eq_decide.mpr (by constructor <;> intro <;> omega)
              have hbit0 : (if s > 0 then 0 else 1 <<< (m % wsize)).testBit k = false := by
                by_cases hs : s > 0
                · rw [if_pos hs]; exact Nat.zero_testBit k
                · rw [if_neg hs, Nat.one_shiftLeft, Nat.testBit_two_pow]
                  simp [Ne.symm hkm]
              rw [hbit0, Bool.or_false, harith]
        · have hget : (packStep wsize ws (m, s)).getD w 0 = ws.getD w 0 := by
            simp only [packStep]
            exact getD_set_ne _ _ _ _ _ (fun hc => hww hc.symm)
          refine ⟨hget ▸ (hinv _ hwlen).1, ?_⟩
          intro k hk
          have hidx : w * wsize + k ≠ m := idx_ne_of_ne_div hw hk hww
          have harith : decide (w * wsize + k < m + 1) = decide (w * wsize + k < m) :=
            decide_eq_decide.mpr (by constructor <;> intro <;> omega)
          rw [hget, (hinv _ hwlen).2 k hk, harith]
      have hlink' : ∀ j, j < t'.length → cond (m + 1 + j) = decide (t'.getD j 0 ≤ 0) := by
        intro j hj
        have := hlink (j + 1) (by simp; omega)
        rw [show m + (j + 1) = m + 1 + j by omega] at this
        simpa using this
      have hbound' : m + 1 + t'.length ≤ (packStep wsize ws (m, s)).length * wsize := by
        rw [hlen']
        simp only [List.length_cons] at hbound
        omega
      have hres := ih (m + 1) (packStep wsize ws (m, s)) hlink' hinv' hbound'
      simp only [List.enumFrom_cons, List.foldl_cons]
      constructor
      · rw [hres.1, hlen']
      · intro w hwlen
        have hwlen' : w < (packStep wsize ws (m, s)).length := by rw [hlen']; exact hwlen
        refine ⟨(hres.2 w hwlen').1, ?_⟩
        intro k hk
        rw [(hres.2 w hwlen').2 k hk]
        have hm1 : m + 1 + t'.length = m + (t'.length + 1) := by omega
        rw [hm1]
        simp

lemma packWords_spec (wsize : ℕ) (hw : 0 < wsize) (arr : List Spin) :
    (packWords wsize arr).length = numWords wsize arr.length ∧
    ∀ w, w < numWords wsize arr.length →
      (packWords wsize arr).getD w 0 < 2 ^ wsize ∧
      ∀ k, k < wsize → ((packWords wsize arr).getD w 0).testBit k
        = (decide (w * wsize + k < arr.length) && decide (arr.getD (w * wsize + k) 0 ≤ 0)) := by
  have hrep : ∀ w, w < (List.replicate (numWords wsize arr.length) (0 : ℕ)).length →
      (List.replicate (numWords wsize arr.length) (0 : ℕ)).getD w 0 < 2 ^ wsize ∧
      ∀ k, k < wsize →
        ((List.replicate (numWords wsize arr.length) (0 : ℕ)).getD w 0).testBit k
          = (decide (w * wsize + k < 0) &&
             decide (arr.getD (w * wsize + k) 0 ≤ 0)) := by
    intro w hwl
    rw [List.length_replicate] at hwl
    have hz : (List.replicate (numWords wsize arr.length) (0 : ℕ)).getD w 0 = 0 := by
      simp [List.getD_eq_getElem?_getD, List.getElem?_replicate, hwl]
    rw [hz]
    exact ⟨Nat.pos_pow_of_pos wsize (by omega), fun k _ => by simp⟩
  have hfold := packFold_inv wsize hw (fun i => decide (arr.getD i 0 ≤ 0)) arr 0
    (List.replicate (numWords wsize arr.length) 0)
    (fun j _ => by simp) hrep
    (by rw [List.length_replicate]; simpa using le_numWords_mul wsize arr.length hw)
  have henum : arr.enum = arr.enumFrom 0 := rfl
  unfold packWords
  rw [henum]
  rw [List.length_replicate] at hfold
  exact ⟨hfold.1, fun w hwl => by
    have := hfold.2 w hwl
    simpa using this⟩

lemma decode_packWords (wsize : ℕ) (hw : 0 < wsize) (arr : List Spin)
    (hpm : ∀ x ∈ arr, x = 1 ∨ x = -1) :
    decodeWords wsize (packWords wsize arr) arr.length = arr := by
  have hspec := packWords_spec wsize hw arr
  apply List.ext_getElem
  · simp [decodeWords]
  · intro i h1 h2
    simp only [decodeWords, List.getElem_map, List.getElem_range]
    have hin : i < arr.length := h2
    have hdivlt : i / wsize < numWords wsize arr.length :=
      div_lt_of_lt_mul_words hw (lt_of_lt_of_le hin (le_numWords_mul wsize arr.length hw))
    have hmodlt : i % wsize < wsize := Nat.mod_lt i hw
    have hbit := (hspec.2 (i / wsize) hdivlt).2 (i % wsize) hmodlt
    have hidx : (i / wsize) * wsize + i % wsize = i := by
      rw [Nat.mul_comm]; exact Nat.div_add_mod i wsize
    rw [hidx] at hbit
    have hgd : arr.getD i 0 = arr[i] := by
      simp [List.getD_eq_getElem?_getD, List.getElem?_eq_getElem hin]
    rcases hpm arr[i] (List.getElem_mem hin) with hx | hx
    · have hng : ¬ (arr.getD i 0 ≤ 0) := by rw [hgd, hx]; decide
      rw [hbit]
      simp [hng, hin, hx]
    · have hg : arr.getD i 0 ≤ 0 := by rw [hgd, hx]; decide
      rw [hbit]
      simp [hg, hin, hx]

lemma packWords_trailing (wsize : ℕ) (hw : 0 < wsize) (arr : List Spin) :
    ∀ w k, w < (packWords wsize arr).length → arr.length ≤ w * wsize + k →
      ((packWords wsize arr).getD w 0).testBit k = false := by
  intro w k hwl hnk
  have hspec := packWords_spec wsize hw arr
  rw [hspec.1] at hwl
  by_cases hk : k < wsize
  · rw [(hspec.2 w hwl).2 k hk]
    have : ¬ (w * wsize + k < arr.length) := by omega
    simp [this]
  · have hlt : (packWords wsize arr).getD w 0 < 2 ^ k :=
      lt_of_lt_of_le (hspec.2 w hwl).1
        (Nat.pow_le_pow_right (by omega) (by omega))
    exact Nat.testBit_lt_two_pow hlt

/-- C6: decoding `as_bytes` and `as_u64_vec` by the convention +1 → 0,
−1 → 1, least-significant bit = lowest spin index within each byte or word
reproduces the original ±1 spin vector, and every bit at an index at or
beyond N in any byte or word is zero. -/
theorem C6_bitpack_roundtrip (s : IsingState) (hpm : ∀ x ∈ s.arr, x = 1 ∨ x = -1) :
    decodeWords 8 s.as_bytes s.arr.length = s.arr ∧
    decodeWords 64 s.as_u64_vec s.arr.length = s.arr ∧
    (∀ w k, w < s.as_bytes.length → s.arr.length ≤ w * 8 + k →
      (s.as_bytes.getD w 0).testBit k = false) ∧
    (∀ w k, w < s.as_u64_vec.length → s.arr.length ≤ w * 64 + k →
      (s.as_u64_vec.getD w 0).testBit k = false) :=
  ⟨decode_packWords 8 (by omega) s.arr hpm,
   decode_packWords 64 (by omega) s.arr hpm,
   packWords_trailing 8 (by omega) s.arr,
   packWords_trailing 64 (by omega) s.arr⟩

/-- C6 witness: a concrete 9-spin state (so the byte packing spans two
bytes with a ragged tail). -/
theorem C6_bitpack_roundtrip_witness :
    decodeWords 8 (IsingState.as_bytes ⟨[1, -1, -1, 1, 1, -1, 1, 1, -1], 0, false⟩)
        9 = [1, -1, -1, 1, 1, -1, 1, 1, -1] ∧
    decodeWords 64 (IsingState.as_u64_vec ⟨[1, -1, -1, 1, 1, -1, 1, 1, -1], 0, false⟩)
        9 = [1, -1, -1, 1, 1, -1, 1, 1, -1] ∧
    (∀ w k, w < (IsingState.as_bytes ⟨[1, -1, -1, 1, 1, -1, 1, 1, -1], 0, false⟩).length →
      9 ≤ w * 8 + k →
      ((IsingState.as_bytes ⟨[1, -1, -1, 1, 1, -1, 1, 1, -1], 0, false⟩).getD w 0).testBit k
        = false) ∧
    (∀ w k, w < (IsingState.as_u64_vec ⟨[1, -1, -1, 1, 1, -1, 1, 1, -1], 0, false⟩).length →
      9 ≤ w * 64 + k →
      ((IsingState.as_u64_vec ⟨[1, -1, -1, 1, 1, -1, 1, 1, -1], 0, false⟩).getD w 0).testBit k
        = false) :=
  C6_bitpack_roundtrip ⟨[1, -1, -1, 1, 1, -1, 1, 1, -1], 0, false⟩ (by decide)

/-! ### Thermal sample store (src/ising.rs:470) -/

/-- `BqmIsingInstance::suscept` (src/ising.rs:314): χ_k = Σᵢ w_{k,i} q_i. -/
def BqmIsingInstance.suscept (inst : BqmIsingInstance) (overlap : List Spin)
    (i : ℕ) : ℚ :=
  (List.zipWith (fun w si => w * ((si : ℤ) : ℚ))
    (inst.suscept_coefs.getD i []) overlap).sum

/-- `PtIcmThermalSamples` (src/ising.rs:470). Bytes of a packed state are the
`as_bytes` word list. -/
structure PtIcmThermalSamples where
  compression_level : ℕ
  instance_size : ℕ
  beta_arr : List ℚ
  samples : List (List (List ℕ))
  e : List (List ℚ)
  q : List (List ℤ)
  suscept : List (List (List ℚ))
deriving Repr, DecidableEq, Inhabited

/-- `PtIcmThermalSamples::new` (src/ising.rs:482). The capacity arguments
only size Rust allocations and do not affect contents; buckets start empty.
Compression tier 0 allocates one sample bucket per β, tier 1 one per β in
the lower half, and every other tier a single bucket. -/
def PtIcmThermalSamples.new (beta_arr : List ℚ) (instance_size : ℕ)
    (capacity samp_capacity : ℕ) (nchi : ℕ) (compression_level : ℕ) :
    PtIcmThermalSamples :=
  let _ := capacity
  let _ := samp_capacity
  let num_betas := beta_arr.length
  { compression_level := compression_level,
    instance_size := instance_size,
    beta_arr := beta_arr,
    e := List.replicate num_betas [],
    q := List.replicate num_betas [],
    suscept := List.replicate num_betas (List.replicate nchi []),
    samples :=
      if compression_level = 0 then List.replicate num_betas []
      else if compression_level = 1 then List.replicate (num_betas / 2) []
      else [[]] }

/-- `PtIcmThermalSamples::measure` (src/ising.rs:521). The source updates the
disjoint fields e, q and suscept in one pass over β indices; the three folds
below produce the identical field contents (per-bucket push order is
preserved). The energy pushed is the cached-or-recomputed `energy` value; the
cache initialization it performs in the source does not change any value. -/
def PtIcmThermalSamples.measure (self : PtIcmThermalSamples)
    (pt_state : List PTState) (inst : BqmIsingInstance) : PtIcmThermalSamples :=
  let num_chains := pt_state.length
  let num_betas := (pt_state.getD 0 default).states.length
  let nchi := inst.suscept_coefs.length
  let overlapAt := fun (i j : ℕ) => List.zipWith (· * ·)
    ((pt_state.getD (2 * j) default).states.getD i default).arr
    ((pt_state.getD (2 * j + 1) default).states.getD i default).arr
  let e' := (List.range num_betas).foldl (fun acc i =>
    acc.set i (acc.getD i [] ++ (List.range num_chains).map (fun j =>
      inst.energyVal ((pt_state.getD j default).states.getD i default)))) self.e
  let q' := (List.range num_betas).foldl (fun acc i =>
    acc.set i (acc.getD i [] ++ (List.range (num_chains / 2)).map (fun j =>
      (overlapAt i j).sum))) self.q
  let suscept' := (List.range num_betas).foldl (fun acc i =>
    (List.range (num_chains / 2)).foldl (fun acc2 j =>
      if nchi > 0 then
        (List.range nchi).foldl (fun acc3 k =>
          acc3.set i ((acc3.getD i []).set k ((acc3.getD i []).getD k [] ++
            [inst.suscept (overlapAt i j) k]))) acc2
      else acc2) acc) self.suscept
  { self with e := e', q := q', suscept := suscept' }

/-- `PtIcmThermalSamples::sample_states` (src/ising.rs:556): tier 0 records
all β, tier 1 the lower-temperature half in reverse β order, and every other
tier only the largest-β (coldest) state of each chain, in bucket 0. -/
def PtIcmThermalSamples.sample_states (self : PtIcmThermalSamples)
    (pt_state : List PTState) : PtIcmThermalSamples :=
  let num_chains := pt_state.length
  let num_betas := (pt_state.getD 0 default).states.length
  if self.compression_level = 0 then
    let samples0 := (List.range num_betas).foldl (fun acc i =>
      acc.set i (acc.getD i [] ++ (List.range num_chains).map (fun j =>
        ((pt_state.getD j default).states.getD i default).as_bytes))) self.samples
    { self with samples := samples0 }
  else if self.compression_level = 1 then
    let samples1 := (List.range (num_betas / 2)).foldl (fun acc i =>
      let isamp := num_betas - i - 1
      acc.set i (acc.getD i [] ++ (List.range num_chains).map (fun j =>
        ((pt_state.getD j default).states.getD isamp default).as_bytes))) self.samples
    { self with samples := samples1 }
  else
    { self with samples := self.samples.set 0 (self.samples.getD 0 [] ++
        pt_state.map (fun c =>
          (c.states.getD (num_betas - 1) default).as_bytes)) }

/-- C10: every compression_level other than 0 and 1 is handled exactly like
tier 2: the constructor allocates the single (empty) sample bucket and
`sample_states` appends only the coldest-β (last index) state of every chain
to bucket 0. -/
theorem C10_compression_levels_beyond_two (cl : ℕ) (h0 : cl ≠ 0) (h1 : cl ≠ 1)
    (beta_arr : List ℚ) (isz cap scap nchi : ℕ) (s : PtIcmThermalSamples)
    (hs : s.compression_level = cl) (pt_state : List PTState) :
    PtIcmThermalSamples.new beta_arr isz cap scap nchi cl
      = { (PtIcmThermalSamples.new beta_arr isz cap scap nchi 2) with
          compression_level := cl } ∧
    (PtIcmThermalSamples.new beta_arr isz cap scap nchi cl).samples = [[]] ∧
    s.sample_states pt_state
      = { (PtIcmThermalSamples.sample_states { s with compression_level := 2 }
            pt_state) with compression_level := cl } ∧
    (s.sample_states pt_state).samples
      = s.samples.set 0 (s.samples.getD 0 [] ++ pt_state.map (fun c =>
          (c.states.getD ((pt_state.getD 0 default).states.length - 1)
            default).as_bytes)) := by
  cases s
  simp only [PtIcmThermalSamples.compression_level] at hs
  subst hs
  refine ⟨?_, ?_, ?_, ?_⟩ <;>
    simp [PtIcmThermalSamples.new, PtIcmThermalSamples.sample_states, h0, h1]

/-- C10 witness: compression_level = 3 with a concrete store and chain list. -/
theorem C10_compression_levels_beyond_two_witness :
    PtIcmThermalSamples.new [1, 2] 1 4 4 0 3
      = { (PtIcmThermalSamples.new [1, 2] 1 4 4 0 2) with compression_level := 3 } ∧
    (PtIcmThermalSamples.new [1, 2] 1 4 4 0 3).samples = [[]] ∧
    PtIcmThermalSamples.sample_states ⟨3, 1, [1, 2], [[]], [[], []], [[], []], [[], []]⟩
        [⟨[⟨[1], 0, true⟩, ⟨[-1], 0, true⟩]⟩]
      = { (PtIcmThermalSamples.sample_states
            ⟨2, 1, [1, 2], [[]], [[], []], [[], []], [[], []]⟩
            [⟨[⟨[1], 0, true⟩, ⟨[-1], 0, true⟩]⟩]) with compression_level := 3 } ∧
    (PtIcmThermalSamples.sample_states ⟨3, 1, [1, 2], [[]], [[], []], [[], []], [[], []]⟩
        [⟨[⟨[1], 0, true⟩, ⟨[-1], 0, true⟩]⟩]).samples
      = [[]].set 0 ([[]].getD 0 [] ++
          [(⟨[⟨[1], 0, true⟩, ⟨[-1], 0, true⟩]⟩ : PTState)].map (fun c =>
            (c.states.getD
              (([(⟨[⟨[1], 0, true⟩, ⟨[-1], 0, true⟩]⟩ : PTState)].getD 0
                default).states.length - 1) default).as_bytes)) :=
  C10_compression_levels_beyond_two 3 (by decide) (by decide) [1, 2] 1 4 4 0
    ⟨3, 1, [1, 2], [[]], [[], []], [[], []], [[], []]⟩ rfl
    [⟨[⟨[1], 0, true⟩, ⟨[-1], 0, true⟩]⟩]

/-! ### Delta energy versus energy difference (src/ising.rs:325, 355) -/

/-- Rational value of the spin at index j (the `as f32` cast in the source). -/
def spinQ (st : IsingState) (j : ℕ) : ℚ := ((st.arr.getD j 0 : ℤ) : ℚ)

/-- Weight of neighbor j in an adjacency row (sum over duplicate entries). -/
def rowWt (row : List (ℕ × ℚ)) (j : ℕ) : ℚ :=
  ((row.filter (fun p => p.1 == j)).map (fun p => p.2)).sum

lemma Jmat_eq_rowWt (inst : BqmIsingInstance) (i j : ℕ) :
    inst.Jmat i j = rowWt (inst.coupling_vecs.getD i []) j := rfl

lemma rowWt_cons (p : ℕ × ℚ) (row : List (ℕ × ℚ)) (j : ℕ) :
    rowWt (p :: row) j = (if p.1 = j then p.2 else 0) + rowWt row j := by
  by_cases hpj : p.1 = j <;> simp [rowWt, List.filter_cons, hpj]

lemma row_map_sum_eq (f : ℕ → ℚ) (n : ℕ) :
    ∀ (row : List (ℕ × ℚ)), (∀ p ∈ row, p.1 < n) →
      (row.map (fun p => p.2 * f p.1)).sum
        = ∑ j in Finset.range n, rowWt row j * f j := by
  intro row
  induction row with
  | nil => intro _; simp [rowWt]
  | cons p rest ih =>
      intro hmem
      have hp : p.1 < n := hmem p (List.mem_cons_self p rest)
      have hr : ∀ q ∈ rest, q.1 < n := fun q hq => hmem q (List.mem_cons_of_mem p hq)
      simp only [List.map_cons, List.sum_cons, ih hr]
      have hcongr : ∀ j ∈ Finset.range n,
          rowWt (p :: rest) j * f j
            = (if p.1 = j then p.2 * f j else 0) + rowWt rest j * f j := by
        intro j _
        rw [rowWt_cons, add_mul, ite_mul, zero_mul]
      rw [Finset.sum_congr rfl hcongr, Finset.sum_add_distrib,
        Finset.sum_ite_eq (Finset.range n) p.1 (fun j => p.2 * f j),
        if_pos (Finset.mem_range.2 hp)]

lemma map_half_sum (row : List (ℕ × ℚ)) (h : ℕ × ℚ → ℚ) :
    (row.map (fun p => h p / 2)).sum = (row.map h).sum / 2 := by
  induction row with
  | nil => simp
  | cons p rest ih => simp [ih, add_div]

lemma range_map_sum (f : ℕ → ℚ) (n : ℕ) :
    ((List.range n).map f).sum = ∑ i in Finset.range n, f i := by
  induction n with
  | zero => simp
  | succ m ih => rw [List.range_succ, Finset.sum_range_succ]; simp [ih]

lemma sum_update_point {n i : ℕ} (hi : i < n) (g X : ℕ → ℚ) :
    ∑ k in Finset.range n, (if k = i then X k else g k)
      = (∑ k in Finset.range n, g k) + (X i - g i) := by
  have hpt : ∀ k, (if k = i then X k else g k)
      = g k + (if k = i then X k - g k else 0) := by
    intro k
    by_cases hk : k = i
    · subst hk; simp
    · simp [hk]
  rw [Finset.sum_congr rfl (fun k _ => hpt k), Finset.sum_add_distrib]
  congr 1
  rw [Finset.sum_ite_eq' (Finset.range n) i (fun k => X k - g k)]
  simp [Finset.mem_range.2 hi]

lemma energy_ref_eq_sums (inst : BqmIsingInstance) (st : IsingState)
    (hn : inst.coupling_vecs.length = st.arr.length)
    (hidx : ∀ row ∈ inst.coupling_vecs, ∀ p ∈ row, p.1 < st.arr.length) :
    inst.energy_ref st = inst.offset
      + (∑ k in Finset.range st.arr.length, inst.bias.getD k 0 * spinQ st k)
      + (∑ k in Finset.range st.arr.length,
          (∑ j in Finset.range st.arr.length, inst.Jmat k j * spinQ st j)
            * spinQ st k) / 2 := by
  unfold BqmIsingInstance.energy_ref
  rw [hn, range_map_sum]
  have hterm : ∀ k ∈ Finset.range st.arr.length,
      (inst.bias.getD k 0 +
        ((inst.coupling_vecs.getD k []).map
          (fun p => (p.2 * ((st.arr.getD p.1 0 : ℤ) : ℚ)) / 2)).sum)
        * ((st.arr.getD k 0 : ℤ) : ℚ)
      = inst.bias.getD k 0 * spinQ st k
        + ((∑ j in Finset.range st.arr.length, inst.Jmat k j * spinQ st j)
            * spinQ st k) / 2 := by
    intro k hk
    have hklt : k < inst.coupling_vecs.length := by
      rw [hn]; exact Finset.mem_range.1 hk
    have hrow : inst.coupling_vecs.getD k [] ∈ inst.coupling_vecs := by
      have : inst.coupling_vecs.getD k [] = inst.coupling_vecs[k] := by
        simp [List.getD_eq_getElem?_getD, List.getElem?_eq_getElem hklt]
      rw [this]
      exact List.getElem_mem hklt
    have hmem := hidx _ hrow
    simp only [spinQ]
    rw [map_half_sum _ (fun p => p.2 * ((st.arr.getD p.1 0 : ℤ) : ℚ)),
      row_map_sum_eq (fun j => ((st.arr.getD j 0 : ℤ) : ℚ)) st.arr.length _ hmem]
    simp only [← Jmat_eq_rowWt]
    ring
  rw [Finset.sum_congr rfl hterm, Finset.sum_add_distrib, ← Finset.sum_div]
  ring

lemma delta_energy_eq_sums (inst : BqmIsingInstance) (st : IsingState) (i : ℕ)
    (hn : inst.coupling_vecs.length = st.arr.length)
    (hi : i < st.arr.length)
    (hidx : ∀ row ∈ inst.coupling_vecs, ∀ p ∈ row, p.1 < st.arr.length) :
    inst.delta_energy st i
      = (inst.bias.getD i 0
          + ∑ j in Finset.range st.arr.length, inst.Jmat i j * spinQ st j)
        * (-2 * spinQ st i) := by
  simp only [BqmIsingInstance.delta_energy, spinQ]
  have hklt : i < inst.coupling_vecs.length := by rw [hn]; exact hi
  have hrow : inst.coupling_vecs.getD i [] ∈ inst.coupling_vecs := by
    have : inst.coupling_vecs.getD i [] = inst.coupling_vecs[i] := by
      simp [List.getD_eq_getElem?_getD, List.getElem?_eq_getElem hklt]
    rw [this]
    exact List.getElem_mem hklt
  rw [row_map_sum_eq (fun j => ((st.arr.getD j 0 : ℤ) : ℚ)) st.arr.length _
    (hidx _ hrow)]
  simp only [← Jmat_eq_rowWt]

lemma uset_neg_length (s : IsingState) (i : ℕ) :
    (s.uset_neg i).arr.length = s.arr.length := by
  simp [IsingState.uset_neg]

lemma uset_neg_spinQ (s : IsingState) (i : ℕ) (hi : i < s.arr.length) :
    ∀ j, j < s.arr.length →
      spinQ (s.uset_neg i) j = if j = i then -(spinQ s j) else spinQ s j := by
  intro j hj
  by_cases hji : j = i
  · subst hji
    simp only [spinQ, IsingState.uset_neg, if_pos rfl]
    rw [getD_set_self _ _ _ _ hi]
    push_cast
    ring
  · simp only [spinQ, IsingState.uset_neg, if_neg hji]
    rw [getD_set_ne _ _ _ _ _ (fun hc => hji hc.symm)]

/-- C2: `delta_energy(s, i)` equals −2 sᵢ (hᵢ + Σⱼ J_{ij} sⱼ), and equals the
`energy_ref` of the state with spin i flipped minus the `energy_ref` of the
state, for instances whose adjacency lists are symmetric with a zero
diagonal (the data-model invariants) and in-range, with exact (round-off
free) arithmetic. -/
theorem C2_delta_energy_flip (inst : BqmIsingInstance) (s : IsingState) (i : ℕ)
    (hn : inst.coupling_vecs.length = s.arr.length)
    (hi : i < s.arr.length)
    (hidx : ∀ row ∈ inst.coupling_vecs, ∀ p ∈ row, p.1 < s.arr.length)
    (hsym : ∀ a b, a < s.arr.length → b < s.arr.length →
      inst.Jmat a b = inst.Jmat b a)
    (hdiag : ∀ a, a < s.arr.length → inst.Jmat a a = 0)
    (hpm : ∀ x ∈ s.arr, x = 1 ∨ x = -1) :
    inst.delta_energy s i
      = -2 * spinQ s i * (inst.bias.getD i 0
          + ∑ j in Finset.range s.arr.length, inst.Jmat i j * spinQ s j) ∧
    inst.energy_ref (s.uset_neg i) - inst.energy_ref s
      = inst.delta_energy s i := by
  have _ := hpm
  set n := s.arr.length with hn_def
  set σ : ℕ → ℚ := spinQ s with hσ_def
  set b : ℕ → ℚ := fun k => inst.bias.getD k 0 with hb_def
  set Jm : ℕ → ℕ → ℚ := fun a c => inst.Jmat a c with hJ_def
  have hdelta := delta_energy_eq_sums inst s i hn hi hidx
  constructor
  · rw [hdelta]; ring
  · -- expansion of both energies
    have hn' : inst.coupling_vecs.length = (s.uset_neg i).arr.length := by
      rw [uset_neg_length]; exact hn
    have hidx' : ∀ row ∈ inst.coupling_vecs, ∀ p ∈ row,
        p.1 < (s.uset_neg i).arr.length := by
      rw [uset_neg_length]; exact hidx
    have hE := energy_ref_eq_sums inst s hn hidx
    have hE' := energy_ref_eq_sums inst (s.uset_neg i) hn' hidx'
    rw [uset_neg_length] at hE'
    have hσ' : ∀ j ∈ Finset.range n,
        spinQ (s.uset_neg i) j = if j = i then -(σ j) else σ j := by
      intro j hj
      exact uset_neg_spinQ s i hi j (Finset.mem_range.1 hj)
    -- the bias sum for the flipped state
    have hB' : (∑ k in Finset.range n, inst.bias.getD k 0 * spinQ (s.uset_neg i) k)
        = (∑ k in Finset.range n, b k * σ k) + (b i * (-(σ i)) - b i * σ i) := by
      have hc : ∀ k ∈ Finset.range n,
          inst.bias.getD k 0 * spinQ (s.uset_neg i) k
            = (if k = i then b k * (-(σ k)) else b k * σ k) := by
        intro k hk
        rw [hσ' k hk, mul_ite]
      rw [Finset.sum_congr rfl hc, sum_update_point hi]
    -- the inner row sums for the flipped state
    have hR : ∀ k, (∑ j in Finset.range n, inst.Jmat k j * spinQ (s.uset_neg i) j)
        = (∑ j in Finset.range n, Jm k j * σ j)
          + (Jm k i * (-(σ i)) - Jm k i * σ i) := by
      intro k
      have hc : ∀ j ∈ Finset.range n,
          inst.Jmat k j * spinQ (s.uset_neg i) j
            = (if j = i then Jm k j * (-(σ j)) else Jm k j * σ j) := by
        intro j hj
        rw [hσ' j hj, mul_ite]
      rw [Finset.sum_congr rfl hc, sum_update_point hi]
    -- the quadratic sum for the flipped state
    have hD' : (∑ k in Finset.range n,
          (∑ j in Finset.range n, inst.Jmat k j * spinQ (s.uset_neg i) j)
            * spinQ (s.uset_neg i) k)
        = (∑ k in Finset.range n,
            (∑ j in Finset.range n, Jm k j * σ j) * σ k)
          + (-2 * σ i) * (∑ k in Finset.range n, Jm i k * σ k)
          + ((∑ j in Finset.range n, Jm i j * σ j) * (-(σ i))
              - (∑ j in Finset.range n, Jm i j * σ j) * σ i) := by
      have hc : ∀ k ∈ Finset.range n,
          (∑ j in Finset.range n, inst.Jmat k j * spinQ (s.uset_neg i) j)
            * spinQ (s.uset_neg i) k
          = (if k = i
              then ((∑ j in Finset.range n, Jm k j * σ j)
                + (Jm k i * (-(σ i)) - Jm k i * σ i)) * (-(σ k))
              else ((∑ j in Finset.range n, Jm k j * σ j)
                + (Jm k i * (-(σ i)) - Jm k i * σ i)) * σ k) := by
        intro k hk
        rw [hR k, hσ' k hk, mul_ite]
      rw [Finset.sum_congr rfl hc, sum_update_point hi]
      have hsplit : ∀ k ∈ Finset.range n,
          ((∑ j in Finset.range n, Jm k j * σ j)
            + (Jm k i * (-(σ i)) - Jm k i * σ i)) * σ k
          = (∑ j in Finset.range n, Jm k j * σ j) * σ k
            + (-2 * σ i) * (Jm k i * σ k) := by
        intro k _
        ring
      rw [Finset.sum_congr rfl hsplit, Finset.sum_add_distrib, ← Finset.mul_sum]
      have hcol : (∑ k in Finset.range n, Jm k i * σ k)
          = (∑ k in Finset.range n, Jm i k * σ k) := by
        apply Finset.sum_congr rfl
        intro k hk
        rw [show Jm k i = Jm i k from
          hsym k i (Finset.mem_range.1 hk) hi]
      have hdiag_i : Jm i i = 0 := hdiag i hi
      rw [hcol]
      simp only [hdiag_i]
      ring
    rw [hE, hE', hB', hD', hdelta]
    ring

/-- C2 witness: the two-spin instance h = (1/2, −1), J₀₁ = J₁₀ = 1 at state
(+1, +1), flipping spin 0. -/
theorem C2_delta_energy_flip_witness :
    (BqmIsingInstance.delta_energy ⟨0, [1/2, -1], [(0, 1, 1), (1, 0, 1)],
        [[(1, 1)], [(0, 1)]], []⟩ ⟨[1, 1], 0, false⟩ 0
      = -2 * spinQ ⟨[1, 1], 0, false⟩ 0
          * ((⟨0, [1/2, -1], [(0, 1, 1), (1, 0, 1)], [[(1, 1)], [(0, 1)]], []⟩ :
              BqmIsingInstance).bias.getD 0 0
            + ∑ j in Finset.range 2,
                (⟨0, [1/2, -1], [(0, 1, 1), (1, 0, 1)], [[(1, 1)], [(0, 1)]], []⟩ :
                  BqmIsingInstance).Jmat 0 j * spinQ ⟨[1, 1], 0, false⟩ j)) ∧
    BqmIsingInstance.energy_ref ⟨0, [1/2, -1], [(0, 1, 1), (1, 0, 1)],
        [[(1, 1)], [(0, 1)]], []⟩ (IsingState.uset_neg ⟨[1, 1], 0, false⟩ 0)
      - BqmIsingInstance.energy_ref ⟨0, [1/2, -1], [(0, 1, 1), (1, 0, 1)],
          [[(1, 1)], [(0, 1)]], []⟩ ⟨[1, 1], 0, false⟩
      = BqmIsingInstance.delta_energy ⟨0, [1/2, -1], [(0, 1, 1), (1, 0, 1)],
          [[(1, 1)], [(0, 1)]], []⟩ ⟨[1, 1], 0, false⟩ 0 :=
  C2_delta_energy_flip ⟨0, [1/2, -1], [(0, 1, 1), (1, 0, 1)],
      [[(1, 1)], [(0, 1)]], []⟩ ⟨[1, 1], 0, false⟩ 0
    rfl (by decide)
    (by simp)
    (by intro a c ha hc
        have ha2 : a < 2 := ha
        have hc2 : c < 2 := hc
        interval_cases a <;> interval_cases c <;>
          norm_num [BqmIsingInstance.Jmat, List.filter_cons])
    (by intro a ha
        have ha2 : a < 2 := ha
        interval_cases a <;>
          norm_num [BqmIsingInstance.Jmat, List.filter_cons])
    (by decide)

/-! ### Measurement pass and ground-state log (src/ising.rs:868) -/

/-- Rust `Iterator::min_by` over an enumerated list, comparing by `f` and
keeping the FIRST minimum (the Rust tie-breaking rule for min). -/
def minByProj {α : Type} (f : α → ℚ) (l : List α) : Option (ℕ × α) :=
  l.enum.foldl (fun acc p =>
    match acc with
    | none => some p
    | some q => if f p.2 < f q.2 then some p else some q) none

/-- `PtIcmMinResults` (src/ising.rs:441) restricted to the ground-state log;
the fields params, timing, num_measurements, instance_size and
acceptance_counts are not touched by `apply_measurements` and are not used
by any claim. -/
structure PtIcmMinResults where
  gs_time_steps : List ℕ
  gs_energies : List ℚ
  gs_states : List (List ℕ)
deriving Repr, DecidableEq, Inhabited

/-- The (chain, β, energy) triple the measurement pass computes: per chain
the enumerated min_by of the cached energies, then the enumerated min_by of
those pairs by their energy component (src/ising.rs:886-898). -/
def globMin (r : PtIcmRunner) (g : List PTState) : ℕ × (ℕ × ℚ) :=
  (minByProj Prod.snd (g.map (fun pts =>
    (minByProj id (pts.states.map (fun st => r.inst.energyVal st))).getD (0, 0)))).getD
    (0, (0, 0))

/-- The minimum cached energy over all (chain, β) positions, as computed by
the source (the energy component of `globMin`). -/
def gridMin (r : PtIcmRunner) (g : List PTState) : ℚ := (globMin r g).2.2

/-- All cached energies of the replica grid, flattened. -/
def allEnergies (r : PtIcmRunner) (g : List PTState) : List ℚ :=
  (g.map (fun c => c.states.map (fun st => r.inst.energyVal st))).flatten

/-- `PtIcmRunner::apply_measurements` (src/ising.rs:868). The source mutates
energy caches through `instance.energy`; that initialization never changes a
value, so the model reads energies through the pure `energyVal` and leaves
the grid unchanged. -/
def PtIcmRunner.apply_measurements (r : PtIcmRunner) (i : ℕ)
    (pt_state : List PTState) (minimum_e : Option ℚ)
    (pt_results : PtIcmMinResults) (pt_samples : PtIcmThermalSamples) :
    Option ℚ × PtIcmMinResults × PtIcmThermalSamples :=
  if r.meas_init ≤ i then
    let stp := i - r.meas_init
    let pt_samples1 :=
      match r.params.sample with
      | some samp_steps =>
          if stp % samp_steps = 0 ∨ i = r.params.num_sweeps - 1 then
            pt_samples.measure pt_state r.inst
          else pt_samples
      | none => pt_samples
    let pt_samples2 :=
      match r.params.sample_states with
      | some state_samp_steps =>
          if stp % state_samp_steps = 0 ∨ i = r.params.num_sweeps - 1 then
            pt_samples1.sample_states pt_state
          else pt_samples1
      | none => pt_samples1
    let glob := globMin r pt_state
    let min_e_ch := glob.1
    let min_idx := glob.2.1
    let min_e := glob.2.2
    let chain := (pt_state.getD min_e_ch default).states
    let min_state := chain.getD min_idx default
    match minimum_e with
    | none =>
        (some min_e,
         { gs_time_steps := pt_results.gs_time_steps ++ [i],
           gs_energies := pt_results.gs_energies ++ [min_e],
           gs_states := pt_results.gs_states ++ [min_state.as_u64_vec] },
         pt_samples2)
    | some x =>
        if min_e < x then
          (some min_e,
           { gs_time_steps := pt_results.gs_time_steps ++ [i],
             gs_energies := pt_results.gs_energies ++ [min_e],
             gs_states := pt_results.gs_states ++ [min_state.as_u64_vec] },
           pt_samples2)
        else (minimum_e, pt_results, pt_samples2)
  else (minimum_e, pt_results, pt_samples)

/-- The measurement side of the sweep loop (src/ising.rs:819-823): at sweep
t the grid `grid t` is the replica state after that sweep, and
`apply_measurements` is folded over t = 0, …, T−1. -/
def ptMeasureLoop (r : PtIcmRunner) (grid : ℕ → List PTState) :
    ℕ → Option ℚ × PtIcmMinResults × PtIcmThermalSamples
  | 0 => (none, ⟨[], [], []⟩,
      PtIcmThermalSamples.new r.beta_vec r.inst.bias.length 0 0
        r.inst.suscept_coefs.length (r.params.sample_limiting.getD 0))
  | t + 1 =>
      let st := ptMeasureLoop r grid t
      r.apply_measurements t (grid t) st.1 st.2.1 st.2.2

lemma minByProj_fold_inv {α : Type} (f : α → ℚ) :
    ∀ (t : List α) (k : ℕ) (iv : ℕ × α),
      ∃ iv', (t.enumFrom k).foldl (fun acc p =>
          match acc with
          | none => some p
          | some q => if f p.2 < f q.2 then some p else some q) (some iv) = some iv' ∧
        (iv'.2 = iv.2 ∨ iv'.2 ∈ t) ∧ f iv'.2 ≤ f iv.2 ∧ ∀ x ∈ t, f iv'.2 ≤ f x := by
  intro t
  induction t with
  | nil =>
      intro k iv
      exact ⟨iv, rfl, Or.inl rfl, le_refl _, by intro x hx; simp at hx⟩
  | cons y t' ih =>
      intro k iv
      simp only [List.enumFrom_cons, List.foldl_cons]
      by_cases hy : f y < f iv.2
      · rw [if_pos hy]
        obtain ⟨iv', heq, hmem, hle, hall⟩ := ih (k + 1) (k, y)
        refine ⟨iv', heq, ?_, ?_, ?_⟩
        · rcases hmem with h | h
          · exact Or.inr (h ▸ List.mem_cons_self y t')
          · exact Or.inr (List.mem_cons_of_mem y h)
        · exact le_trans hle (le_of_lt hy)
        · intro x hx
          rcases List.mem_cons.1 hx with h | h
          · exact h ▸ hle
          · exact hall x h
      · rw [if_neg hy]
        obtain ⟨iv', heq, hmem, hle, hall⟩ := ih (k + 1) iv
        refine ⟨iv', heq, ?_, hle, ?_⟩
        · rcases hmem with h | h
          · exact Or.inl h
          · exact Or.inr (List.mem_cons_of_mem y h)
        · intro x hx
          rcases List.mem_cons.1 hx with h | h
          · exact h ▸ le_trans hle (not_lt.1 hy)
          · exact hall x h

lemma minByProj_spec {α : Type} (f : α → ℚ) (l : List α) (hl : l ≠ []) :
    ∃ iv, minByProj f l = some iv ∧ iv.2 ∈ l ∧ ∀ x ∈ l, f iv.2 ≤ f x := by
  match l with
  | [] => exact absurd rfl hl
  | y :: t =>
      obtain ⟨iv', heq, hmem, hle, hall⟩ := minByProj_fold_inv f t 1 (0, y)
      refine ⟨iv', ?_, ?_, ?_⟩
      · simpa [minByProj] using heq
      · rcases hmem with h | h
        · exact h ▸ List.mem_cons_self y t
        · exact List.mem_cons_of_mem y h
      · intro x hx
        rcases List.mem_cons.1 hx with h | h
        · exact h ▸ hle
        · exact hall x h

lemma gridMin_spec (r : PtIcmRunner) (g : List PTState) (hg : g ≠ [])
    (hcg : ∀ c ∈ g, c.states ≠ []) :
    gridMin r g ∈ allEnergies r g ∧ ∀ x ∈ allEnergies r g, gridMin r g ≤ x := by
  set mins := g.map (fun pts =>
    (minByProj id (pts.states.map (fun st => r.inst.energyVal st))).getD (0, 0))
    with hmins
  have hminsne : mins ≠ [] := by
    rw [hmins]
    intro hc
    exact hg (List.map_eq_nil.1 hc)
  obtain ⟨iv, hiv, hivmem, hivall⟩ := minByProj_spec Prod.snd mins hminsne
  have hglob : globMin r g = iv := by
    rw [globMin, ← hmins, hiv]
    rfl
  have hchainmin : ∀ pts ∈ g,
      ((minByProj id (pts.states.map (fun st => r.inst.energyVal st))).getD (0, 0)).2
          ∈ pts.states.map (fun st => r.inst.energyVal st) ∧
      ∀ x ∈ pts.states.map (fun st => r.inst.energyVal st),
        ((minByProj id (pts.states.map (fun st => r.inst.energyVal st))).getD
          (0, 0)).2 ≤ x := by
    intro pts hpts
    have hne : pts.states.map (fun st => r.inst.energyVal st) ≠ [] := by
      intro hc
      exact hcg pts hpts (List.map_eq_nil.1 hc)
    obtain ⟨jv, hjv, hjvmem, hjvall⟩ := minByProj_spec id _ hne
    rw [hjv]
    exact ⟨hjvmem, fun x hx => hjvall x hx⟩
  constructor
  · -- membership of the global minimum
    obtain ⟨pts, hpts, hptsmin⟩ := List.mem_map.1 (hmins ▸ hivmem)
    have := (hchainmin pts hpts).1
    rw [hptsmin] at this
    unfold gridMin
    rw [hglob]
    unfold allEnergies
    exact List.mem_flatten.2 ⟨_, List.mem_map.2 ⟨pts, hpts, rfl⟩, this⟩
  · -- lower bound
    intro x hx
    obtain ⟨le, hle, hxle⟩ := List.mem_flatten.1 hx
    obtain ⟨pts, hpts, hptsle⟩ := List.mem_map.1 hle
    have hmv : (minByProj id (pts.states.map (fun st => r.inst.energyVal st))).getD
        (0, 0) ∈ mins := by
      rw [hmins]
      exact List.mem_map.2 ⟨pts, hpts, rfl⟩
    have h1 := hivall _ hmv
    have h2 := (hchainmin pts hpts).2 x (hptsle ▸ hxle)
    unfold gridMin
    rw [hglob]
    exact le_trans h1 h2

lemma chain'_gt_getLast?_le (l : List ℚ) (hc : List.Chain' (· > ·) l) (a : ℚ)
    (ha : l.getLast? = some a) : ∀ e ∈ l, a ≤ e := by
  induction l with
  | nil => simp at ha
  | cons x t ih =>
      intro e he
      match t, hc with
      | [], _ =>
          have hax : a = x := by
            simp [List.getLast?_cons] at ha
            exact ha.symm
          rcases List.mem_cons.1 he with h | h
          · exact hax ▸ h ▸ le_refl _
          · simp at h
      | y :: t', hcc =>
          have hxy : x > y := (List.chain'_cons.1 hcc).1
          have hct : List.Chain' (· > ·) (y :: t') := (List.chain'_cons.1 hcc).2
          have hat : (y :: t').getLast? = some a := by
            rw [← List.getLast?_cons_cons]
            exact ha
          have hiht := ih hct hat
          rcases List.mem_cons.1 he with h | h
          · have hay : a ≤ y := hiht y (List.mem_cons_self y t')
            exact h ▸ le_trans hay (le_of_lt hxy)
          · exact hiht e h

lemma apply_meas_warmup (r : PtIcmRunner) (t : ℕ) (g : List PTState)
    (me : Option ℚ) (res : PtIcmMinResults) (smp : PtIcmThermalSamples)
    (hmeas : ¬ r.meas_init ≤ t) :
    (r.apply_measurements t g me res smp).1 = me ∧
    (r.apply_measurements t g me res smp).2.1 = res := by
  simp only [PtIcmRunner.apply_measurements, if_neg hmeas]
  refine ⟨?_, ?_⟩ <;> first | rfl | trivial

lemma apply_meas_push (r : PtIcmRunner) (t : ℕ) (g : List PTState)
    (me : Option ℚ) (res : PtIcmMinResults) (smp : PtIcmThermalSamples)
    (hmeas : r.meas_init ≤ t)
    (hlink : me = res.gs_energies.getLast?)
    (hlt : ∀ e ∈ res.gs_energies, gridMin r g < e) :
    (r.apply_measurements t g me res smp).1 = some (gridMin r g) ∧
    (r.apply_measurements t g me res smp).2.1
      = { gs_time_steps := res.gs_time_steps ++ [t],
          gs_energies := res.gs_energies ++ [gridMin r g],
          gs_states := res.gs_states ++
            [((g.getD (globMin r g).1 default).states.getD
                (globMin r g).2.1 default).as_u64_vec] } := by
  cases hgl : res.gs_energies.getLast? with
  | none =>
      have hme : me = none := by rw [hlink, hgl]
      simp only [PtIcmRunner.apply_measurements, if_pos hmeas, hme, gridMin]
      refine ⟨?_, ?_⟩ <;> first | rfl | trivial
  | some a =>
      have hme : me = some a := by rw [hlink, hgl]
      have hane : res.gs_energies ≠ [] := by
        intro hc
        rw [hc] at hgl
        simp at hgl
      have hamem : a ∈ res.gs_energies := by
        obtain ⟨ys, hys⟩ := List.getLast?_eq_some_iff.1 hgl
        rw [hys]
        exact List.mem_append_right ys (List.mem_singleton.2 rfl)
      have hlta : gridMin r g < a := hlt a hamem
      have hlta' : (globMin r g).2.2 < a := hlta
      simp only [PtIcmRunner.apply_measurements, if_pos hmeas, hme, gridMin,
        if_pos hlta']
      refine ⟨?_, ?_⟩ <;> first | rfl | trivial

lemma apply_meas_skip (r : PtIcmRunner) (t : ℕ) (g : List PTState)
    (me : Option ℚ) (res : PtIcmMinResults) (smp : PtIcmThermalSamples)
    (hlink : me = res.gs_energies.getLast?)
    (hchain : List.Chain' (· > ·) res.gs_energies)
    (hnot : ¬ ∀ e ∈ res.gs_energies, gridMin r g < e) :
    (r.apply_measurements t g me res smp).1 = me ∧
    (r.apply_measurements t g me res smp).2.1 = res := by
  by_cases hmeas : r.meas_init ≤ t
  · push_neg at hnot
    obtain ⟨e, hemem, hele⟩ := hnot
    have hresne : res.gs_energies ≠ [] := by
      intro hc
      rw [hc] at hemem
      simp at hemem
    obtain ⟨a, ha⟩ : ∃ a, res.gs_energies.getLast? = some a := by
      cases hgl : res.gs_energies.getLast? with
      | none => exact absurd (List.getLast?_eq_none_iff.1 hgl) hresne
      | some a => exact ⟨a, rfl⟩
    have hme : me = some a := by rw [hlink, ha]
    have hale : a ≤ e := chain'_gt_getLast?_le _ hchain a ha e hemem
    have hnlt : ¬ ((globMin r g).2.2 < a) := not_lt.2 (le_trans hale hele)
    simp only [PtIcmRunner.apply_measurements, if_pos hmeas, hme, if_neg hnlt]
    refine ⟨?_, ?_⟩ <;> first | rfl | trivial
  · exact apply_meas_warmup r t g me res smp hmeas

/-- The running invariant of the ground-state log: equal lengths, strictly
decreasing energies, and the tracked minimum equals the last logged energy. -/
lemma ptMeasureLoop_inv (r : PtIcmRunner) (grid : ℕ → List PTState) :
    ∀ T,
      (ptMeasureLoop r grid T).2.1.gs_time_steps.length
        = (ptMeasureLoop r grid T).2.1.gs_energies.length ∧
      (ptMeasureLoop r grid T).2.1.gs_states.length
        = (ptMeasureLoop r grid T).2.1.gs_energies.length ∧
      List.Chain' (· > ·) (ptMeasureLoop r grid T).2.1.gs_energies ∧
      (ptMeasureLoop r grid T).1
        = (ptMeasureLoop r grid T).2.1.gs_energies.getLast? := by
  intro T
  induction T with
  | zero => exact ⟨rfl, rfl, List.chain'_nil, rfl⟩
  | succ t ih =>
      obtain ⟨hlen1, hlen2, hchain, hlink⟩ := ih
      by_cases hcond : r.meas_init ≤ t ∧
          ∀ e ∈ (ptMeasureLoop r grid t).2.1.gs_energies,
            gridMin r (grid t) < e
      · have hp := apply_meas_push r t (grid t) (ptMeasureLoop r grid t).1
          (ptMeasureLoop r grid t).2.1 (ptMeasureLoop r grid t).2.2
          hcond.1 hlink hcond.2
        simp only [ptMeasureLoop]
        rw [hp.1, hp.2]
        refine ⟨by simp [hlen1], by simp [hlen2], ?_, ?_⟩
        · rw [List.chain'_append]
          refine ⟨hchain, List.chain'_singleton _, ?_⟩
          intro x hx y hy
          simp only [List.head?_cons, Option.mem_def, Option.some.injEq] at hy
          subst hy
          have hxmem : x ∈ (ptMeasureLoop r grid t).2.1.gs_energies := by
            obtain ⟨ys, hys⟩ := List.getLast?_eq_some_iff.1 hx
            rw [hys]
            exact List.mem_append_right ys (List.mem_singleton.2 rfl)
          exact hcond.2 x hxmem
        · rw [List.getLast?_concat]
      · have hcases : ¬ r.meas_init ≤ t ∨
            ¬ ∀ e ∈ (ptMeasureLoop r grid t).2.1.gs_energies,
              gridMin r (grid t) < e := by
          by_contra hc
          push_neg at hc
          exact hcond ⟨hc.1, hc.2⟩
        have hs : (r.apply_measurements t (grid t) (ptMeasureLoop r grid t).1
              (ptMeasureLoop r grid t).2.1 (ptMeasureLoop r grid t).2.2).1
              = (ptMeasureLoop r grid t).1 ∧
            (r.apply_measurements t (grid t) (ptMeasureLoop r grid t).1
              (ptMeasureLoop r grid t).2.1 (ptMeasureLoop r grid t).2.2).2.1
              = (ptMeasureLoop r grid t).2.1 := by
          rcases hcases with h | h
          · exact apply_meas_warmup r t (grid t) _ _ _ h
          · exact apply_meas_skip r t (grid t) _ _ _ hlink hchain h
        simp only [ptMeasureLoop]
        rw [hs.1, hs.2]
        exact ⟨hlen1, hlen2, hchain, hlink⟩

/-- C5: during the measurement loop, an entry is appended to the
ground-state log at sweep t exactly when t has reached the warm-up bound
meas_init and the minimum cached grid energy (characterized as a member of,
and a lower bound for, the cached energies of all (chain, β) positions) is
strictly below every previously appended energy; consequently the three log
arrays always have equal lengths and gs_energies is strictly decreasing. -/
theorem C5_ground_state_log (r : PtIcmRunner) (grid : ℕ → List PTState)
    (hne : ∀ t, grid t ≠ [])
    (hcne : ∀ t, ∀ c ∈ grid t, c.states ≠ []) (T : ℕ) :
    ((ptMeasureLoop r grid T).2.1.gs_time_steps.length
        = (ptMeasureLoop r grid T).2.1.gs_energies.length ∧
     (ptMeasureLoop r grid T).2.1.gs_states.length
        = (ptMeasureLoop r grid T).2.1.gs_energies.length) ∧
    List.Chain' (· > ·) (ptMeasureLoop r grid T).2.1.gs_energies ∧
    (∀ t, gridMin r (grid t) ∈ allEnergies r (grid t) ∧
      ∀ x ∈ allEnergies r (grid t), gridMin r (grid t) ≤ x) ∧
    (∀ t, t < T →
      ((r.meas_init ≤ t ∧ (∀ e ∈ (ptMeasureLoop r grid t).2.1.gs_energies,
          gridMin r (grid t) < e)) →
        (ptMeasureLoop r grid (t + 1)).2.1.gs_time_steps
          = (ptMeasureLoop r grid t).2.1.gs_time_steps ++ [t] ∧
        (ptMeasureLoop r grid (t + 1)).2.1.gs_energies
          = (ptMeasureLoop r grid t).2.1.gs_energies ++ [gridMin r (grid t)] ∧
        ∃ packed, (ptMeasureLoop r grid (t + 1)).2.1.gs_states
          = (ptMeasureLoop r grid t).2.1.gs_states ++ [packed]) ∧
      (¬(r.meas_init ≤ t ∧ (∀ e ∈ (ptMeasureLoop r grid t).2.1.gs_energies,
          gridMin r (grid t) < e)) →
        (ptMeasureLoop r grid (t + 1)).2.1 = (ptMeasureLoop r grid t).2.1)) := by
  obtain ⟨hlen1, hlen2, hchain, _⟩ := ptMeasureLoop_inv r grid T
  refine ⟨⟨hlen1, hlen2⟩, hchain, ?_, ?_⟩
  · intro t
    exact gridMin_spec r (grid t) (hne t) (hcne t)
  · intro t _
    obtain ⟨_, _, hchaint, hlinkt⟩ := ptMeasureLoop_inv r grid t
    constructor
    · intro hcond
      have hp := apply_meas_push r t (grid t) (ptMeasureLoop r grid t).1
        (ptMeasureLoop r grid t).2.1 (ptMeasureLoop r grid t).2.2
        hcond.1 hlinkt hcond.2
      simp only [ptMeasureLoop]
      rw [hp.2]
      exact ⟨rfl, rfl, _, rfl⟩
    · intro hcond
      have hcases : ¬ r.meas_init ≤ t ∨
          ¬ ∀ e ∈ (ptMeasureLoop r grid t).2.1.gs_energies,
            gridMin r (grid t) < e := by
        by_contra hc
        push_neg at hc
        exact hcond ⟨hc.1, hc.2⟩
      have hs : (r.apply_measurements t (grid t) (ptMeasureLoop r grid t).1
            (ptMeasureLoop r grid t).2.1 (ptMeasureLoop r grid t).2.2).2.1
            = (ptMeasureLoop r grid t).2.1 := by
        rcases hcases with h | h
        · exact (apply_meas_warmup r t (grid t) _ _ _ h).2
        · exact (apply_meas_skip r t (grid t) _ _ _ hlinkt hchaint h).2
      simp only [ptMeasureLoop]
      rw [hs]

/-- Concrete runner for the C5 witness. -/
def c5Runner : PtIcmRunner :=
  ⟨⟨2, 0, [1], 1, false, 1, 1, none, none, none⟩,
   ⟨0, [0], [], [[]], []⟩, fun _ => [], [1], 0, 0⟩

/-- Concrete sweep-indexed replica grid for the C5 witness: one chain, one
β, cached energies 5, 4, 3, … -/
def c5Grid : ℕ → List PTState := fun t => [⟨[⟨[1], 5 - (t : ℚ), true⟩]⟩]

/-- C5 witness: the theorem applied to the concrete runner and grid, with
the nonemptiness hypotheses discharged. -/
theorem C5_ground_state_log_witness :
    (((ptMeasureLoop c5Runner c5Grid 2).2.1.gs_time_steps.length
        = (ptMeasureLoop c5Runner c5Grid 2).2.1.gs_energies.length ∧
     (ptMeasureLoop c5Runner c5Grid 2).2.1.gs_states.length
        = (ptMeasureLoop c5Runner c5Grid 2).2.1.gs_energies.length) ∧
    List.Chain' (· > ·) (ptMeasureLoop c5Runner c5Grid 2).2.1.gs_energies ∧
    (∀ t, gridMin c5Runner (c5Grid t) ∈ allEnergies c5Runner (c5Grid t) ∧
      ∀ x ∈ allEnergies c5Runner (c5Grid t), gridMin c5Runner (c5Grid t) ≤ x) ∧
    (∀ t, t < 2 →
      ((c5Runner.meas_init ≤ t ∧
          (∀ e ∈ (ptMeasureLoop c5Runner c5Grid t).2.1.gs_energies,
            gridMin c5Runner (c5Grid t) < e)) →
        (ptMeasureLoop c5Runner c5Grid (t + 1)).2.1.gs_time_steps
          = (ptMeasureLoop c5Runner c5Grid t).2.1.gs_time_steps ++ [t] ∧
        (ptMeasureLoop c5Runner c5Grid (t + 1)).2.1.gs_energies
          = (ptMeasureLoop c5Runner c5Grid t).2.1.gs_energies
              ++ [gridMin c5Runner (c5Grid t)] ∧
        ∃ packed, (ptMeasureLoop c5Runner c5Grid (t + 1)).2.1.gs_states
          = (ptMeasureLoop c5Runner c5Grid t).2.1.gs_states ++ [packed]) ∧
      (¬(c5Runner.meas_init ≤ t ∧
          (∀ e ∈ (ptMeasureLoop c5Runner c5Grid t).2.1.gs_energies,
            gridMin c5Runner (c5Grid t) < e)) →
        (ptMeasureLoop c5Runner c5Grid (t + 1)).2.1
          = (ptMeasureLoop c5Runner c5Grid t).2.1))) :=
  C5_ground_state_log c5Runner c5Grid
    (fun _ => List.cons_ne_nil _ _)
    (fun _ c hc => by
      rcases List.mem_singleton.1 hc with rfl
      exact List.cons_ne_nil _ _)
    2

/-! ### Beta-ladder optimizer, pt_optimize_beta (src/ising.rs:935)

The optimizer is modelled over ℝ (f32 sqrt/exp/ln/log10 become the real
functions). The data produced by the PT runs — per instance, the
chain-summed diffusion histogram rows and the total round-trip count, both
held by tamc_core::pt::PTState outside src/ — enter as an oracle argument:
one list of (round_trips, histogram) per iteration. Everything downstream
of that data is translated from pt_optimize_beta itself, except the four
helpers named below that live in tamc_core::util or the external interp
crate. -/

noncomputable section OptimizerModel

/-- f32::EPSILON = 2⁻²³. -/
def f32Eps : ℝ := 1 / 2 ^ 23

/-- Modelled from the spec: tamc_core::util::StepwiseMeasure (not under
src/). Spec section 4.7 step 5 calls its weights the β-quadrature weights of
the stepwise measure: half-interval widths, w_0 = (β₁−β₀)/2,
w_k = (β_{k+1}−β_{k−1})/2, w_last = (β_last−β_{last−1})/2. -/
def stepwiseWeights (xs : List ℝ) : List ℝ :=
  (List.range xs.length).map (fun k =>
    if k = 0 then (xs.getD 1 0 - xs.getD 0 0) / 2
    else if k = xs.length - 1 then (xs.getD k 0 - xs.getD (k - 1) 0) / 2
    else (xs.getD (k + 1) 0 - xs.getD (k - 1) 0) / 2)

/-- Modelled from the spec: tamc_core::util::finite_differences (not under
src/). Spec section 4.7 step 4: finite differences df/dβ, one value per β
point; forward differences with the final value repeating the last
segment. -/
def finite_differences (xs fs : List ℝ) : List ℝ :=
  (List.range xs.length).map (fun k =>
    if k + 1 < xs.length then
      (fs.getD (k + 1) 0 - fs.getD k 0) / (xs.getD (k + 1) 0 - xs.getD k 0)
    else
      (fs.getD k 0 - fs.getD (k - 1) 0) / (xs.getD k 0 - xs.getD (k - 1) 0))

/-- The external interp crate: piecewise-linear interpolation through the
points (xs, ys), clamped at both ends. -/
def interp : List ℝ → List ℝ → ℝ → ℝ
  | x0 :: x1 :: xs, y0 :: y1 :: ys, x =>
      if x ≤ x0 then y0
      else if x ≤ x1 then y0 + (x - x0) * (y1 - y0) / (x1 - x0)
      else interp (x1 :: xs) (y1 :: ys) x
  | [_], y0 :: _, _ => y0
  | _, _, _ => 0

/-- Modelled from the spec: tamc_core::util::monotonic_divisions (not under
src/). Spec section 4.7 step 8: invert the CDF f at the equally spaced
interior levels k/n by monotonic bisection, endpoints pinned to 0 and 1.
The bisection inverse at level t is modelled as the infimum of the points
of [0,1] where f has reached t (joined with 1 so the set is nonempty). -/
def mdPoint (f : ℝ → ℝ) (n k : ℕ) : ℝ :=
  if k = 0 then 0
  else if k = n then 1
  else sInf ({x : ℝ | x ∈ Set.Icc (0 : ℝ) 1 ∧ ((k : ℝ) / (n : ℝ)) ≤ f x} ∪ {1})

/-- Modelled from the spec (see `mdPoint`): the n+1 division points. -/
def monotonic_divisions (f : ℝ → ℝ) (n : ℕ) : List ℝ :=
  (List.range (n + 1)).map (mdPoint f n)

/-- Round-trip time per replica (src/ising.rs:980-982). -/
def tau_of (ns nc nt rts : ℕ) : ℝ :=
  if rts = 0 then 0 else (ns : ℝ) / ((rts : ℝ) / ((nc * nt : ℕ) : ℝ))

/-- n_maxbeta / (n_minbeta + n_maxbeta) per β row of the chain-summed
diffusion histogram (src/ising.rs:990-993). -/
def dif_probs (hist : List (ℕ × ℕ)) : List ℝ :=
  hist.map (fun ab => (ab.2 : ℝ) / ((ab.1 : ℝ) + (ab.2 : ℝ)))

/-- Σᵢ τᵢ · (df/dβ)ᵢ over the per-instance oracle data
(src/ising.rs:999-1006). -/
def weighted_d_dif (ns nc : ℕ) (beta_vec : List ℝ)
    (runs : List (ℕ × List (ℕ × ℕ))) : List ℝ :=
  runs.foldl
    (fun acc r => List.zipWith
      (fun a d => a + tau_of ns nc beta_vec.length r.1 * d) acc
      (finite_differences beta_vec (dif_probs r.2)))
    (List.replicate beta_vec.length 0)

/-- The trapezoid-averaged unnormalized η (src/ising.rs:1009-1012). -/
def unnorm_eta_t (ns nc : ℕ) (beta_vec : List ℝ)
    (runs : List (ℕ × List (ℕ × ℕ))) : List ℝ :=
  let eta2 := List.zipWith (fun x w => x / w)
    (weighted_d_dif ns nc beta_vec runs) (stepwiseWeights beta_vec)
  let eta := eta2.map (fun x => Real.sqrt (max x 0))
  List.zipWith (fun a b => (a + b) / 2) eta (eta.drop 1)

/-- The η CDF: running prefix sums of the normalized η, then 1 appended
(src/ising.rs:1018-1024). -/
def eta_cdf_of (z : ℝ) (eta_t : List ℝ) : List ℝ :=
  let eta_vec := eta_t.map (fun x => x / z)
  ((List.range eta_vec.length).map (fun k => (eta_vec.take k).sum)) ++ [1]

/-- The inverse-CDF β values of one iteration (src/ising.rs:1027-1036). -/
def calc_beta_divs (beta_vec : List ℝ) (eta_cdf : List ℝ) : List ℝ :=
  let nt := beta_vec.length
  let beta_min := beta_vec.getD 0 0
  let beta_max := beta_vec.getD (nt - 1) 0
  let eta_fn := fun x => interp beta_vec eta_cdf (beta_min + x * (beta_max - beta_min))
  (monotonic_divisions eta_fn (nt - 1)).map
    (fun x => x * (beta_max - beta_min) + beta_min)

/-- The calculated β array of one iteration, from the current β array and
the oracle data of that iteration. -/
def calcOf (ns nc : ℕ) (runs : List (ℕ × List (ℕ × ℕ)))
    (beta_vec : List ℝ) : List ℝ :=
  let eta_t := unnorm_eta_t ns nc beta_vec runs
  calc_beta_divs beta_vec (eta_cdf_of eta_t.sum eta_t)

/-- The momentum update, the interior update and the err accumulation
(src/ising.rs:1040-1053): returns (new momentum, new β array, err). The
single source loop both writes the new interior values and accumulates
|log₁₀ b2 − log₁₀ b1| where b2 is the CALCULATED value still stored in
beta_divs and b1 the current β value; err is then divided by nt. -/
def betaUpdate (alpha : ℝ) (beta_vec momentum calcb : List ℝ) :
    List ℝ × List ℝ × ℝ :=
  let nt := beta_vec.length
  let momentum_beta := List.zipWith
    (fun bp b1 => Real.exp (0.85 * Real.log bp + 0.15 * Real.log b1))
    momentum ((calcb.drop 1).take (nt - 2))
  let upd := (List.zip ((calcb.drop 1).take (nt - 2))
      (List.zip ((beta_vec.drop 1).take (nt - 2)) momentum_beta)).foldl
    (fun (acc : List ℝ × ℝ) p =>
      (acc.1 ++ [Real.exp (alpha * Real.log p.2.2 + (1 - alpha) * Real.log p.2.1)],
       acc.2 + |Real.logb 10 p.1 - Real.logb 10 p.2.1|))
    ([], 0)
  let err := upd.2 / (nt : ℝ)
  (momentum_beta, calcb.take 1 ++ upd.1 ++ calcb.drop (1 + upd.1.length), err)

/-- The per-iteration state of pt_optimize_beta: the current β array
(params.beta), the momentum β values, and whether the loop has broken. -/
structure OptState where
  beta : List ℝ
  momentum : List ℝ
  broke : Bool

/-- The iteration step size α (src/ising.rs:947-959): annealed linearly
between alpha_init = alpha_end = 0.2. -/
def alphaOf (num_iters i : ℕ) : ℝ :=
  (0.2 : ℝ) + ((i : ℝ) / (((num_iters - 1 : ℕ) : ℝ))) * ((0.2 : ℝ) - (0.2 : ℝ))

open Classical in
/-- One iteration of pt_optimize_beta (src/ising.rs:958-1071) given the
oracle data of that iteration. Returns the new state and the err value
(none when the iteration was skipped because z < f32::EPSILON, or after the
loop has broken). The break at err < 2·10⁻² freezes the state. -/
def optIter (ns nc : ℕ) (alpha : ℝ) (runs : List (ℕ × List (ℕ × ℕ)))
    (st : OptState) : OptState × Option ℝ :=
  if st.broke then (st, none)
  else
    let eta_t := unnorm_eta_t ns nc st.beta runs
    let z := eta_t.sum
    if z < f32Eps then (st, none)
    else
      let calcb := calcOf ns nc runs st.beta
      let u := betaUpdate alpha st.beta st.momentum calcb
      (⟨u.2.1, u.1, if u.2.2 < (2e-2 : ℝ) then true else false⟩, some u.2.2)

/-- `pt_optimize_beta` (src/ising.rs:935): the state after k iterations,
starting from the initial β array (momentum is initialized to its interior
values, src/ising.rs:955). -/
def pt_optimize_beta (ns nc num_iters : ℕ)
    (oracle : ℕ → List (ℕ × List (ℕ × ℕ))) (beta0 : List ℝ) : ℕ → OptState
  | 0 => ⟨beta0, (beta0.drop 1).take (beta0.length - 2), false⟩
  | k + 1 =>
      (optIter ns nc (alphaOf num_iters k) (oracle k)
        (pt_optimize_beta ns nc num_iters oracle beta0 k)).1

end OptimizerModel

/-! ### C8: endpoint preservation and monotonicity of the β ladder -/

lemma mdPoint_nonneg (f : ℝ → ℝ) (n k : ℕ) : 0 ≤ mdPoint f n k := by
  unfold mdPoint
  split
  · exact le_refl 0
  · split
    · exact zero_le_one
    · apply le_csInf ⟨1, Set.mem_union_right _ (Set.mem_singleton 1)⟩
      intro y hy
      rcases hy with ⟨⟨h0, _⟩, _⟩ | hy1
      · exact h0
      · rw [Set.mem_singleton_iff.1 hy1]; exact zero_le_one

lemma mdPoint_le_one (f : ℝ → ℝ) (n k : ℕ) : mdPoint f n k ≤ 1 := by
  unfold mdPoint
  split
  · exact zero_le_one
  · split
    · exact le_refl 1
    · apply csInf_le ⟨0, ?_⟩ (Set.mem_union_right _ (Set.mem_singleton 1))
      intro y hy
      rcases hy with ⟨⟨h0, _⟩, _⟩ | hy1
      · exact h0
      · rw [Set.mem_singleton_iff.1 hy1]; exact zero_le_one

lemma mdPoint_zero (f : ℝ → ℝ) (n : ℕ) : mdPoint f n 0 = 0 := if_pos rfl

lemma mdPoint_last (f : ℝ → ℝ) (n : ℕ) (hn : n ≠ 0) : mdPoint f n n = 1 := by
  unfold mdPoint
  rw [if_neg hn, if_pos rfl]

lemma mdPoint_mono (f : ℝ → ℝ) (n : ℕ) {k k' : ℕ} (hkk : k ≤ k') (hk'n : k' ≤ n) :
    mdPoint f n k ≤ mdPoint f n k' := by
  by_cases hk0 : k = 0
  · rw [hk0, mdPoint_zero]
    exact mdPoint_nonneg f n k'
  · by_cases hk'1 : k' = n
    · rw [hk'1, mdPoint_last f n (by omega)]
      exact mdPoint_le_one f n k
    · have hkn : k ≠ n := by omega
      have hk'0 : k' ≠ 0 := by omega
      unfold mdPoint
      rw [if_neg hk0, if_neg hkn, if_neg hk'0, if_neg hk'1]
      apply csInf_le_csInf
      · refine ⟨0, ?_⟩
        intro y hy
        rcases hy with ⟨⟨h0, _⟩, _⟩ | hy1
        · exact h0
        · rw [Set.mem_singleton_iff.1 hy1]; exact zero_le_one
      · exact ⟨1, Set.mem_union_right _ (Set.mem_singleton 1)⟩
      · intro x hx
        rcases hx with ⟨hmem, hfx⟩ | hx1
        · refine Or.inl ⟨hmem, le_trans ?_ hfx⟩
          by_cases hn0 : (n : ℝ) = 0
          · rw [hn0]; simp
          · have hnpos : (0 : ℝ) < n :=
              lt_of_le_of_ne (Nat.cast_nonneg n) (Ne.symm hn0)
            exact (div_le_div_right hnpos).2 (Nat.cast_le.2 hkk)
        · exact Or.inr hx1

lemma monotonic_divisions_length (f : ℝ → ℝ) (n : ℕ) :
    (monotonic_divisions f n).length = n + 1 := by
  simp [monotonic_divisions]

lemma monotonic_divisions_getElem (f : ℝ → ℝ) (n k : ℕ)
    (hk : k < (monotonic_divisions f n).length) :
    (monotonic_divisions f n)[k] = mdPoint f n k := by
  simp [monotonic_divisions]

lemma monotonic_divisions_chain' (f : ℝ → ℝ) (n : ℕ) :
    List.Chain' (· ≤ ·) (monotonic_divisions f n) := by
  rw [List.chain'_iff_get]
  intro i hi
  rw [monotonic_divisions_length] at hi
  simp only [List.get_eq_getElem, monotonic_divisions_getElem]
  exact mdPoint_mono f n (Nat.le_succ i) (by omega)

lemma monotonic_divisions_mem (f : ℝ → ℝ) (n : ℕ) :
    ∀ x ∈ monotonic_divisions f n, 0 ≤ x ∧ x ≤ 1 := by
  intro x hx
  obtain ⟨k, _, hk⟩ := List.mem_map.1 hx
  exact hk ▸ ⟨mdPoint_nonneg f n k, mdPoint_le_one f n k⟩

lemma chain'_le_getElem {l : List ℝ} (h : List.Chain' (· ≤ ·) l) {i j : ℕ}
    (hij : i ≤ j) (hj : j < l.length) : l.get ⟨i, by omega⟩ ≤ l.get ⟨j, hj⟩ := by
  rcases Nat.lt_or_ge i j with hlt | hge
  · have hp := (List.chain'_iff_pairwise.1 h)
    exact List.pairwise_iff_get.1 hp ⟨i, by omega⟩ ⟨j, hj⟩ hlt
  · have hii : i = j := by omega
    subst hii
    exact le_refl _

section CalcBetaDivs

variable (beta_vec eta_cdf : List ℝ)

lemma calc_beta_divs_length :
    (calc_beta_divs beta_vec eta_cdf).length = (beta_vec.length - 1) + 1 := by
  simp [calc_beta_divs, monotonic_divisions_length]

lemma calc_beta_divs_getElem (k : ℕ)
    (hk : k < (calc_beta_divs beta_vec eta_cdf).length) :
    (calc_beta_divs beta_vec eta_cdf)[k]
      = mdPoint (fun x => interp beta_vec eta_cdf
            (beta_vec.getD 0 0 + x * (beta_vec.getD (beta_vec.length - 1) 0
              - beta_vec.getD 0 0))) (beta_vec.length - 1) k
          * (beta_vec.getD (beta_vec.length - 1) 0 - beta_vec.getD 0 0)
        + beta_vec.getD 0 0 := by
  simp [calc_beta_divs, monotonic_divisions]

lemma calc_beta_divs_head (h2 : 2 ≤ beta_vec.length) :
    (calc_beta_divs beta_vec eta_cdf).getD 0 0 = beta_vec.getD 0 0 := by
  have hlen := calc_beta_divs_length beta_vec eta_cdf
  have h0 : 0 < (calc_beta_divs beta_vec eta_cdf).length := by omega
  rw [List.getD_eq_getElem?_getD, List.getElem?_eq_getElem h0]
  simp only [Option.getD_some]
  rw [calc_beta_divs_getElem beta_vec eta_cdf 0 h0, mdPoint_zero]
  ring

lemma calc_beta_divs_last (h2 : 2 ≤ beta_vec.length) :
    (calc_beta_divs beta_vec eta_cdf).getD (beta_vec.length - 1) 0
      = beta_vec.getD (beta_vec.length - 1) 0 := by
  have hlen := calc_beta_divs_length beta_vec eta_cdf
  have hlt : beta_vec.length - 1 < (calc_beta_divs beta_vec eta_cdf).length := by
    omega
  rw [List.getD_eq_getElem?_getD, List.getElem?_eq_getElem hlt]
  simp only [Option.getD_some]
  rw [calc_beta_divs_getElem beta_vec eta_cdf _ hlt,
    mdPoint_last _ _ (by omega)]
  ring

lemma calc_beta_divs_chain' (hmm : beta_vec.getD 0 0
      ≤ beta_vec.getD (beta_vec.length - 1) 0) :
    List.Chain' (· ≤ ·) (calc_beta_divs beta_vec eta_cdf) := by
  unfold calc_beta_divs
  rw [List.chain'_map]
  apply List.Chain'.imp ?_ (monotonic_divisions_chain' _ _)
  intro a b hab
  have hd : 0 ≤ beta_vec.getD (beta_vec.length - 1) 0 - beta_vec.getD 0 0 := by
    linarith
  nlinarith

lemma calc_beta_divs_mem (hmm : beta_vec.getD 0 0
      ≤ beta_vec.getD (beta_vec.length - 1) 0) :
    ∀ x ∈ calc_beta_divs beta_vec eta_cdf,
      beta_vec.getD 0 0 ≤ x ∧ x ≤ beta_vec.getD (beta_vec.length - 1) 0 := by
  intro x hx
  unfold calc_beta_divs at hx
  obtain ⟨y, hy, hxy⟩ := List.mem_map.1 hx
  obtain ⟨hy0, hy1⟩ := monotonic_divisions_mem _ _ y hy
  have hd : 0 ≤ beta_vec.getD (beta_vec.length - 1) 0 - beta_vec.getD 0 0 := by
    linarith
  constructor
  · rw [← hxy]; nlinarith
  · rw [← hxy]; nlinarith

end CalcBetaDivs

lemma chain'_le_getD (l : List ℝ) (h : List.Chain' (· ≤ ·) l) {i j : ℕ}
    (hij : i ≤ j) (hj : j < l.length) : l.getD i 0 ≤ l.getD j 0 := by
  rw [List.getD_eq_getElem _ _ (by omega), List.getD_eq_getElem _ _ hj]
  exact chain'_le_getElem h hij hj

lemma chain'_of_getD (l : List ℝ)
    (h : ∀ i, i + 1 < l.length → l.getD i 0 ≤ l.getD (i + 1) 0) :
    List.Chain' (· ≤ ·) l := by
  rw [List.chain'_iff_get]
  intro i hi
  have hh := h i (by omega)
  rw [List.getD_eq_getElem _ _ (by omega), List.getD_eq_getElem _ _ (by omega)] at hh
  simpa using hh

lemma gmix_mem {lo hi a b c d : ℝ} (hlo : 0 < lo) (hc : 0 ≤ c) (hd : 0 ≤ d)
    (hcd : c + d = 1) (ha1 : lo ≤ a) (ha2 : a ≤ hi) (hb1 : lo ≤ b) (hb2 : b ≤ hi) :
    lo ≤ Real.exp (c * Real.log a + d * Real.log b) ∧
      Real.exp (c * Real.log a + d * Real.log b) ≤ hi := by
  have hapos : 0 < a := lt_of_lt_of_le hlo ha1
  have hbpos : 0 < b := lt_of_lt_of_le hlo hb1
  have hhipos : 0 < hi := lt_of_lt_of_le hapos ha2
  have hla1 : Real.log lo ≤ Real.log a := Real.log_le_log hlo ha1
  have hla2 : Real.log a ≤ Real.log hi := Real.log_le_log hapos ha2
  have hlb1 : Real.log lo ≤ Real.log b := Real.log_le_log hlo hb1
  have hlb2 : Real.log b ≤ Real.log hi := Real.log_le_log hbpos hb2
  have hsumlo : c * Real.log lo + d * Real.log lo = Real.log lo := by
    rw [← add_mul, hcd, one_mul]
  have hsumhi : c * Real.log hi + d * Real.log hi = Real.log hi := by
    rw [← add_mul, hcd, one_mul]
  constructor
  · rw [← Real.exp_log hlo]
    apply Real.exp_le_exp.2
    nlinarith [mul_nonneg hc (sub_nonneg.2 hla1), mul_nonneg hd (sub_nonneg.2 hlb1)]
  · rw [← Real.exp_log hhipos]
    apply Real.exp_le_exp.2
    nlinarith [mul_nonneg hc (sub_nonneg.2 hla2), mul_nonneg hd (sub_nonneg.2 hlb2)]

lemma gmix_mono {lo a b a2 b2 c d : ℝ} (hlo : 0 < lo) (hc : 0 ≤ c) (hd : 0 ≤ d)
    (ha : lo ≤ a) (hb : lo ≤ b) (haa : a ≤ a2) (hbb : b ≤ b2) :
    Real.exp (c * Real.log a + d * Real.log b)
      ≤ Real.exp (c * Real.log a2 + d * Real.log b2) := by
  have hapos : 0 < a := lt_of_lt_of_le hlo ha
  have hbpos : 0 < b := lt_of_lt_of_le hlo hb
  apply Real.exp_le_exp.2
  have h1 : Real.log a ≤ Real.log a2 := Real.log_le_log hapos haa
  have h2 : Real.log b ≤ Real.log b2 := Real.log_le_log hbpos hbb
  nlinarith [mul_nonneg hc (sub_nonneg.2 h1), mul_nonneg hd (sub_nonneg.2 h2)]

lemma foldl_append_sum {α : Type} (g h : α → ℝ) :
    ∀ (l : List α) (acc : List ℝ × ℝ),
      l.foldl (fun acc p => (acc.1 ++ [g p], acc.2 + h p)) acc
        = (acc.1 ++ l.map g, acc.2 + (l.map h).sum)
  | [], acc => by simp
  | a :: l, acc => by
      rw [List.foldl_cons, foldl_append_sum g h l]
      simp [List.append_assoc, add_assoc]

noncomputable section C8Model

/-- The momentum mix written by one iteration of pt_optimize_beta
(src/ising.rs:1041-1043), shared by the C8 invariant and the C9 err
analysis. -/
def momNew (beta_vec momentum calcb : List ℝ) : List ℝ :=
  List.zipWith (fun bp b1 => Real.exp (0.85 * Real.log bp + 0.15 * Real.log b1))
    momentum ((calcb.drop 1).take (beta_vec.length - 2))

/-- The zipped interior data (calculated β, previous β, mixed momentum β)
iterated by the update loop (src/ising.rs:1044-1053). -/
def interiorZip (beta_vec momentum calcb : List ℝ) : List (ℝ × ℝ × ℝ) :=
  List.zip ((calcb.drop 1).take (beta_vec.length - 2))
    (List.zip ((beta_vec.drop 1).take (beta_vec.length - 2))
      (momNew beta_vec momentum calcb))

/-- The new interior β values written by the update loop. -/
def interiorNew (alpha : ℝ) (beta_vec momentum calcb : List ℝ) : List ℝ :=
  (interiorZip beta_vec momentum calcb).map
    (fun p => Real.exp (alpha * Real.log p.2.2 + (1 - alpha) * Real.log p.2.1))

/-- The err value accumulated by the update loop and divided by nt. -/
def errOf (beta_vec momentum calcb : List ℝ) : ℝ :=
  ((interiorZip beta_vec momentum calcb).map
    (fun p => |Real.logb 10 p.1 - Real.logb 10 p.2.1|)).sum / (beta_vec.length : ℝ)

lemma betaUpdate_def (alpha : ℝ) (beta_vec momentum calcb : List ℝ) :
    betaUpdate alpha beta_vec momentum calcb =
      (momNew beta_vec momentum calcb,
       calcb.take 1 ++ interiorNew alpha beta_vec momentum calcb
         ++ calcb.drop (1 + (interiorNew alpha beta_vec momentum calcb).length),
       errOf beta_vec momentum calcb) := by
  simp only [betaUpdate, momNew, interiorZip, interiorNew, errOf]
  rw [foldl_append_sum]
  simp

lemma momNew_length (beta_vec momentum calcb : List ℝ) (nt0 : ℕ) (h2 : 2 ≤ nt0)
    (hbl : beta_vec.length = nt0) (hml : momentum.length = nt0 - 2)
    (hcl : calcb.length = nt0) :
    (momNew beta_vec momentum calcb).length = nt0 - 2 := by
  simp only [momNew, List.length_zipWith, List.length_take, List.length_drop,
    hbl, hml, hcl]
  omega

lemma interiorZip_length (beta_vec momentum calcb : List ℝ) (nt0 : ℕ)
    (h2 : 2 ≤ nt0) (hbl : beta_vec.length = nt0) (hml : momentum.length = nt0 - 2)
    (hcl : calcb.length = nt0) :
    (interiorZip beta_vec momentum calcb).length = nt0 - 2 := by
  simp only [interiorZip, List.length_zip, List.length_take, List.length_drop,
    hbl, hcl]
  rw [momNew_length beta_vec momentum calcb nt0 h2 hbl hml hcl]
  omega

lemma interiorNew_length (alpha : ℝ) (beta_vec momentum calcb : List ℝ) (nt0 : ℕ)
    (h2 : 2 ≤ nt0) (hbl : beta_vec.length = nt0) (hml : momentum.length = nt0 - 2)
    (hcl : calcb.length = nt0) :
    (interiorNew alpha beta_vec momentum calcb).length = nt0 - 2 := by
  simp only [interiorNew, List.length_map]
  exact interiorZip_length beta_vec momentum calcb nt0 h2 hbl hml hcl

lemma momNew_getD (beta_vec momentum calcb : List ℝ) (nt0 k : ℕ) (h2 : 2 ≤ nt0)
    (hbl : beta_vec.length = nt0) (hml : momentum.length = nt0 - 2)
    (hcl : calcb.length = nt0) (hk : k < nt0 - 2) :
    (momNew beta_vec momentum calcb).getD k 0
      = Real.exp (0.85 * Real.log (momentum.getD k 0)
          + 0.15 * Real.log (calcb.getD (1 + k) 0)) := by
  have hlen := momNew_length beta_vec momentum calcb nt0 h2 hbl hml hcl
  rw [List.getD_eq_getElem _ _ (by omega), List.getD_eq_getElem _ _ (by omega),
    List.getD_eq_getElem _ _ (by omega)]
  simp only [momNew, List.getElem_zipWith, List.getElem_take, List.getElem_drop]

lemma interiorNew_getD (alpha : ℝ) (beta_vec momentum calcb : List ℝ) (nt0 k : ℕ)
    (h2 : 2 ≤ nt0) (hbl : beta_vec.length = nt0) (hml : momentum.length = nt0 - 2)
    (hcl : calcb.length = nt0) (hk : k < nt0 - 2) :
    (interiorNew alpha beta_vec momentum calcb).getD k 0
      = Real.exp (alpha * Real.log ((momNew beta_vec momentum calcb).getD k 0)
          + (1 - alpha) * Real.log (beta_vec.getD (1 + k) 0)) := by
  have hlen := interiorNew_length alpha beta_vec momentum calcb nt0 h2 hbl hml hcl
  have hzlen := interiorZip_length beta_vec momentum calcb nt0 h2 hbl hml hcl
  have hmlen := momNew_length beta_vec momentum calcb nt0 h2 hbl hml hcl
  rw [List.getD_eq_getElem _ _ (by omega), List.getD_eq_getElem _ _ (by omega),
    List.getD_eq_getElem _ _ (by omega)]
  simp only [interiorNew, interiorZip, List.getElem_map, List.getElem_zip,
    List.getElem_take, List.getElem_drop]

lemma newBeta_length (calcb NI : List ℝ) (nt0 : ℕ) (h2 : 2 ≤ nt0)
    (hcl : calcb.length = nt0) (hil : NI.length = nt0 - 2) :
    (calcb.take 1 ++ NI ++ calcb.drop (1 + NI.length)).length = nt0 := by
  simp only [List.length_append, List.length_take, List.length_drop, hcl, hil]
  omega

lemma newBeta_getD (calcb NI : List ℝ) (nt0 : ℕ) (h2 : 2 ≤ nt0)
    (hcl : calcb.length = nt0) (hil : NI.length = nt0 - 2) (k : ℕ) :
    (calcb.take 1 ++ NI ++ calcb.drop (1 + NI.length)).getD k 0
      = if k = 0 then calcb.getD 0 0
        else if k < nt0 - 1 then NI.getD (k - 1) 0
        else calcb.getD k 0 := by
  have htake : (calcb.take 1).length = 1 := by
    simp only [List.length_take, hcl]
    omega
  rw [List.getD_eq_getElem?_getD, List.append_assoc]
  by_cases hk0 : k = 0
  · subst hk0
    rw [if_pos rfl]
    rw [List.getElem?_append_left (by rw [htake]; omega)]
    rw [List.getElem?_take_of_lt (by omega)]
    rw [List.getD_eq_getElem?_getD]
  · by_cases hk1 : k < nt0 - 1
    · rw [if_neg hk0, if_pos hk1]
      rw [List.getElem?_append_right (by rw [htake]; omega)]
      rw [htake]
      rw [List.getElem?_append_left (by rw [hil]; omega)]
      rw [List.getD_eq_getElem?_getD]
    · rw [if_neg hk0, if_neg hk1]
      rw [List.getElem?_append_right (by rw [htake]; omega)]
      rw [htake]
      rw [List.getElem?_append_right (by rw [hil]; omega)]
      rw [List.getElem?_drop, hil]
      have hidx : 1 + (nt0 - 2) + (k - 1 - (nt0 - 2)) = k := by omega
      rw [hidx, List.getD_eq_getElem?_getD]

/-- The invariant maintained by the β optimization loop: fixed length and
endpoints, an ordered β ladder with all values between the endpoints, and a
well-formed ordered momentum array with the same bounds. -/
def OptInv (nt0 : ℕ) (bmin bmax : ℝ) (st : OptState) : Prop :=
  st.beta.length = nt0 ∧
  st.beta.getD 0 0 = bmin ∧
  st.beta.getD (nt0 - 1) 0 = bmax ∧
  List.Chain' (· ≤ ·) st.beta ∧
  (∀ k, k < nt0 → bmin ≤ st.beta.getD k 0 ∧ st.beta.getD k 0 ≤ bmax) ∧
  st.momentum.length = nt0 - 2 ∧
  List.Chain' (· ≤ ·) st.momentum ∧
  (∀ k, k < nt0 - 2 → bmin ≤ st.momentum.getD k 0 ∧ st.momentum.getD k 0 ≤ bmax)

lemma betaUpdate_inv (alpha bmin bmax : ℝ) (beta_vec momentum calcb : List ℝ)
    (nt0 : ℕ) (b : Bool) (h2 : 2 ≤ nt0) (hmin : 0 < bmin)
    (ha0 : 0 ≤ alpha) (ha1 : alpha ≤ 1)
    (hbl : beta_vec.length = nt0)
    (hbc : List.Chain' (· ≤ ·) beta_vec)
    (hbm : ∀ k, k < nt0 → bmin ≤ beta_vec.getD k 0 ∧ beta_vec.getD k 0 ≤ bmax)
    (hml : momentum.length = nt0 - 2)
    (hmc : List.Chain' (· ≤ ·) momentum)
    (hmmem : ∀ k, k < nt0 - 2 → bmin ≤ momentum.getD k 0 ∧ momentum.getD k 0 ≤ bmax)
    (hcl : calcb.length = nt0)
    (hc0 : calcb.getD 0 0 = bmin)
    (hclast : calcb.getD (nt0 - 1) 0 = bmax)
    (hcc : List.Chain' (· ≤ ·) calcb)
    (hcm : ∀ k, k < nt0 → bmin ≤ calcb.getD k 0 ∧ calcb.getD k 0 ≤ bmax) :
    OptInv nt0 bmin bmax ⟨(betaUpdate alpha beta_vec momentum calcb).2.1,
      (betaUpdate alpha beta_vec momentum calcb).1, b⟩ := by
  have hmM : bmin ≤ bmax := by
    have h := (hcm 0 (by omega)).2
    rw [hc0] at h
    exact h
  rw [betaUpdate_def]
  have hmNl := momNew_length beta_vec momentum calcb nt0 h2 hbl hml hcl
  have hiNl := interiorNew_length alpha beta_vec momentum calcb nt0 h2 hbl hml hcl
  have hd1 : (0:ℝ) ≤ 1 - alpha := by linarith
  have hmNb : ∀ k, k < nt0 - 2 →
      bmin ≤ (momNew beta_vec momentum calcb).getD k 0 ∧
        (momNew beta_vec momentum calcb).getD k 0 ≤ bmax := by
    intro k hk
    rw [momNew_getD beta_vec momentum calcb nt0 k h2 hbl hml hcl hk]
    exact gmix_mem hmin (by norm_num) (by norm_num) (by norm_num)
      (hmmem k hk).1 (hmmem k hk).2
      (hcm (1 + k) (by omega)).1 (hcm (1 + k) (by omega)).2
  have hmNc : List.Chain' (· ≤ ·) (momNew beta_vec momentum calcb) := by
    apply chain'_of_getD
    intro i hi
    rw [hmNl] at hi
    rw [momNew_getD beta_vec momentum calcb nt0 i h2 hbl hml hcl (by omega),
      momNew_getD beta_vec momentum calcb nt0 (i + 1) h2 hbl hml hcl (by omega)]
    exact gmix_mono hmin (by norm_num) (by norm_num)
      (hmmem i (by omega)).1 (hcm (1 + i) (by omega)).1
      (chain'_le_getD momentum hmc (Nat.le_succ i) (by omega))
      (chain'_le_getD calcb hcc (show 1 + i ≤ 1 + (i + 1) by omega) (by omega))
  have hiNb : ∀ k, k < nt0 - 2 →
      bmin ≤ (interiorNew alpha beta_vec momentum calcb).getD k 0 ∧
        (interiorNew alpha beta_vec momentum calcb).getD k 0 ≤ bmax := by
    intro k hk
    rw [interiorNew_getD alpha beta_vec momentum calcb nt0 k h2 hbl hml hcl hk]
    exact gmix_mem hmin ha0 hd1 (by ring)
      (hmNb k hk).1 (hmNb k hk).2
      (hbm (1 + k) (by omega)).1 (hbm (1 + k) (by omega)).2
  have hiNc : List.Chain' (· ≤ ·) (interiorNew alpha beta_vec momentum calcb) := by
    apply chain'_of_getD
    intro i hi
    rw [hiNl] at hi
    rw [interiorNew_getD alpha beta_vec momentum calcb nt0 i h2 hbl hml hcl
        (by omega),
      interiorNew_getD alpha beta_vec momentum calcb nt0 (i + 1) h2 hbl hml hcl
        (by omega)]
    exact gmix_mono hmin ha0 hd1
      (hmNb i (by omega)).1 (hbm (1 + i) (by omega)).1
      (chain'_le_getD (momNew beta_vec momentum calcb) hmNc (Nat.le_succ i)
        (by omega))
      (chain'_le_getD beta_vec hbc (show 1 + i ≤ 1 + (i + 1) by omega) (by omega))
  refine ⟨?_, ?_, ?_, ?_, ?_, ?_, ?_, ?_⟩
  · exact newBeta_length calcb _ nt0 h2 hcl hiNl
  · rw [newBeta_getD calcb _ nt0 h2 hcl hiNl 0, if_pos rfl]
    exact hc0
  · rw [newBeta_getD calcb _ nt0 h2 hcl hiNl (nt0 - 1),
      if_neg (by omega), if_neg (by omega)]
    exact hclast
  · apply chain'_of_getD
    intro i hi
    rw [newBeta_length calcb _ nt0 h2 hcl hiNl] at hi
    by_cases h1 : i = 0
    · subst h1
      rw [newBeta_getD calcb _ nt0 h2 hcl hiNl 0, if_pos rfl,
        newBeta_getD calcb _ nt0 h2 hcl hiNl 1, if_neg one_ne_zero]
      by_cases hA : 1 < nt0 - 1
      · rw [if_pos hA, hc0]
        have hb := (hiNb 0 (by omega)).1
        simpa using hb
      · rw [if_neg hA]
        exact chain'_le_getD calcb hcc (Nat.zero_le 1) (by omega)
    · rw [newBeta_getD calcb _ nt0 h2 hcl hiNl i, if_neg h1,
        if_pos (show i < nt0 - 1 by omega),
        newBeta_getD calcb _ nt0 h2 hcl hiNl (i + 1), if_neg (by omega)]
      by_cases hB : i + 1 < nt0 - 1
      · rw [if_pos hB]
        simp only [Nat.add_sub_cancel]
        exact chain'_le_getD (interiorNew alpha beta_vec momentum calcb) hiNc
          (show i - 1 ≤ i by omega) (by omega)
      · rw [if_neg hB]
        have hieq : i + 1 = nt0 - 1 := by omega
        rw [hieq, hclast]
        exact (hiNb (i - 1) (by omega)).2
  · intro k hk
    rw [newBeta_getD calcb _ nt0 h2 hcl hiNl k]
    split_ifs with h1 h2a
    · rw [hc0]
      exact ⟨le_refl bmin, hmM⟩
    · exact hiNb (k - 1) (by omega)
    · exact hcm k hk
  · exact hmNl
  · exact hmNc
  · exact hmNb

lemma calcOf_facts (ns nc : ℕ) (runs : List (ℕ × List (ℕ × ℕ)))
    (beta_vec : List ℝ) (nt0 : ℕ) (bmin bmax : ℝ)
    (h2 : 2 ≤ nt0) (hbl : beta_vec.length = nt0) (hb0 : beta_vec.getD 0 0 = bmin)
    (hblast : beta_vec.getD (nt0 - 1) 0 = bmax) (hmM : bmin ≤ bmax) :
    (calcOf ns nc runs beta_vec).length = nt0 ∧
    (calcOf ns nc runs beta_vec).getD 0 0 = bmin ∧
    (calcOf ns nc runs beta_vec).getD (nt0 - 1) 0 = bmax ∧
    List.Chain' (· ≤ ·) (calcOf ns nc runs beta_vec) ∧
    (∀ k, k < nt0 → bmin ≤ (calcOf ns nc runs beta_vec).getD k 0 ∧
      (calcOf ns nc runs beta_vec).getD k 0 ≤ bmax) := by
  have hmm' : beta_vec.getD 0 0 ≤ beta_vec.getD (beta_vec.length - 1) 0 := by
    rw [hb0, hbl, hblast]
    exact hmM
  simp only [calcOf]
  generalize eta_cdf_of (unnorm_eta_t ns nc beta_vec runs).sum
    (unnorm_eta_t ns nc beta_vec runs) = ec
  refine ⟨?_, ?_, ?_, ?_, ?_⟩
  · rw [calc_beta_divs_length]
    omega
  · rw [calc_beta_divs_head beta_vec ec (by omega)]
    exact hb0
  · have h := calc_beta_divs_last beta_vec ec (by omega)
    rw [hbl] at h
    rw [h]
    exact hblast
  · exact calc_beta_divs_chain' beta_vec ec hmm'
  · intro k hk
    have hlen : (calc_beta_divs beta_vec ec).length = nt0 := by
      rw [calc_beta_divs_length]
      omega
    rw [List.getD_eq_getElem _ _ (by omega)]
    have hmem := calc_beta_divs_mem beta_vec ec hmm' _
      (List.getElem_mem (show k < (calc_beta_divs beta_vec ec).length by omega))
    have hlast' : beta_vec.getD (beta_vec.length - 1) 0 = bmax := by
      rw [hbl]
      exact hblast
    exact ⟨le_of_eq_of_le hb0.symm hmem.1, le_of_le_of_eq hmem.2 hlast'⟩

lemma optIter_inv (ns nc : ℕ) (alpha bmin bmax : ℝ)
    (runs : List (ℕ × List (ℕ × ℕ))) (st : OptState) (nt0 : ℕ)
    (h2 : 2 ≤ nt0) (hmin : 0 < bmin) (ha0 : 0 ≤ alpha) (ha1 : alpha ≤ 1)
    (hinv : OptInv nt0 bmin bmax st) :
    OptInv nt0 bmin bmax (optIter ns nc alpha runs st).1 := by
  obtain ⟨hbl, hb0, hblast, hbc, hbm, hml, hmc, hmmem⟩ := hinv
  have hmM : bmin ≤ bmax := by
    have h := (hbm 0 (by omega)).2
    rw [hb0] at h
    exact h
  simp only [optIter]
  split
  · exact ⟨hbl, hb0, hblast, hbc, hbm, hml, hmc, hmmem⟩
  · split
    · exact ⟨hbl, hb0, hblast, hbc, hbm, hml, hmc, hmmem⟩
    · obtain ⟨hcl, hc0, hclast, hcc, hcm⟩ :=
        calcOf_facts ns nc runs st.beta nt0 bmin bmax h2 hbl hb0 hblast hmM
      exact betaUpdate_inv alpha bmin bmax st.beta st.momentum
        (calcOf ns nc runs st.beta) nt0 _ h2 hmin ha0 ha1 hbl hbc hbm hml hmc
        hmmem hcl hc0 hclast hcc hcm

lemma alphaOf_eq (num_iters i : ℕ) : alphaOf num_iters i = 0.2 := by
  simp only [alphaOf]
  ring

lemma initMomentum_getD (beta0 : List ℝ) (nt0 k : ℕ) (h2 : 2 ≤ nt0)
    (hbl : beta0.length = nt0) (hk : k < nt0 - 2) :
    ((beta0.drop 1).take (beta0.length - 2)).getD k 0 = beta0.getD (1 + k) 0 := by
  rw [List.getD_eq_getElem?_getD, List.getElem?_take_of_lt (by omega),
    List.getElem?_drop, List.getD_eq_getElem?_getD]

lemma pt_optimize_inv (ns nc num_iters : ℕ)
    (oracle : ℕ → List (ℕ × List (ℕ × ℕ))) (beta0 : List ℝ)
    (h2 : 2 ≤ beta0.length) (hpos : 0 < beta0.getD 0 0)
    (hmono : List.Chain' (· ≤ ·) beta0) :
    ∀ k, OptInv beta0.length (beta0.getD 0 0)
      (beta0.getD (beta0.length - 1) 0)
      (pt_optimize_beta ns nc num_iters oracle beta0 k)
  | 0 => by
      simp only [pt_optimize_beta]
      refine ⟨rfl, rfl, rfl, hmono, ?_, ?_, ?_, ?_⟩
      · intro k hk
        exact ⟨chain'_le_getD beta0 hmono (Nat.zero_le k) hk,
          chain'_le_getD beta0 hmono (by omega) (by omega)⟩
      · simp only [List.length_take, List.length_drop]
        omega
      · exact (hmono.drop 1).take _
      · intro k hk
        rw [initMomentum_getD beta0 beta0.length k h2 rfl hk]
        exact ⟨chain'_le_getD beta0 hmono (Nat.zero_le (1 + k)) (by omega),
          chain'_le_getD beta0 hmono (by omega) (by omega)⟩
  | k + 1 => by
      have ih := pt_optimize_inv ns nc num_iters oracle beta0 h2 hpos hmono k
      simp only [pt_optimize_beta]
      exact optIter_inv ns nc (alphaOf num_iters k) _ _ (oracle k) _ _ h2 hpos
        (by rw [alphaOf_eq]; norm_num) (by rw [alphaOf_eq]; norm_num) ih

/-- C8: In pt_optimize_beta, after every iteration the first and last
entries of the β array equal the initial β_min and β_max (the array keeps
its length, so only the T−2 interior values can change), and the β array is
non-decreasing. Proved for any oracle data, any iteration count k, from a
β ladder of length ≥ 2 that starts positive and non-decreasing. -/
theorem C8_optimize_beta_endpoints_monotone (ns nc num_iters : ℕ)
    (oracle : ℕ → List (ℕ × List (ℕ × ℕ))) (beta0 : List ℝ)
    (h2 : 2 ≤ beta0.length) (hpos : 0 < beta0.getD 0 0)
    (hmono : List.Chain' (· ≤ ·) beta0) (k : ℕ) :
    (pt_optimize_beta ns nc num_iters oracle beta0 k).beta.getD 0 0
        = beta0.getD 0 0 ∧
      (pt_optimize_beta ns nc num_iters oracle beta0 k).beta.getD
          (beta0.length - 1) 0
        = beta0.getD (beta0.length - 1) 0 ∧
      (pt_optimize_beta ns nc num_iters oracle beta0 k).beta.length
        = beta0.length ∧
      List.Chain' (· ≤ ·) (pt_optimize_beta ns nc num_iters oracle beta0 k).beta := by
  obtain ⟨hl, h0, hlast, hc, _⟩ :=
    pt_optimize_inv ns nc num_iters oracle beta0 h2 hpos hmono k
  exact ⟨h0, hlast, hl, hc⟩

/-- C8 witness: the endpoint/monotonicity invariant applied at the concrete
ladder [1, 2] with concrete oracle data after one iteration. -/
theorem C8_optimize_beta_endpoints_monotone_witness :
    (pt_optimize_beta 3 1 5 (fun _ => [(0, [(1, 1), (1, 1)])])
          [(1 : ℝ), 2] 1).beta.getD 0 0
        = ([(1 : ℝ), 2]).getD 0 0 ∧
      (pt_optimize_beta 3 1 5 (fun _ => [(0, [(1, 1), (1, 1)])])
          [(1 : ℝ), 2] 1).beta.getD (([(1 : ℝ), 2]).length - 1) 0
        = ([(1 : ℝ), 2]).getD (([(1 : ℝ), 2]).length - 1) 0 ∧
      (pt_optimize_beta 3 1 5 (fun _ => [(0, [(1, 1), (1, 1)])])
          [(1 : ℝ), 2] 1).beta.length = ([(1 : ℝ), 2]).length ∧
      List.Chain' (· ≤ ·)
        (pt_optimize_beta 3 1 5 (fun _ => [(0, [(1, 1), (1, 1)])])
          [(1 : ℝ), 2] 1).beta :=
  C8_optimize_beta_endpoints_monotone 3 1 5 (fun _ => [(0, [(1, 1), (1, 1)])])
    [(1 : ℝ), 2] (by norm_num) (by norm_num)
    (by simp only [List.chain'_cons, List.chain'_singleton, and_true]; norm_num) 1

end C8Model

/-! ### C9: the convergence measure err and the break condition -/

noncomputable section C9Model

/-- The err value claim C9 describes, written from the claim text: the mean
over the T−2 interior β points of |log₁₀(β_new/β_prev)|, where β_new is the
updated interior β value (the value stored in the new state) and β_prev the
value from the previous iteration. -/
def claimErr (stOld stNew : OptState) : ℝ :=
  ((List.range (stOld.beta.length - 2)).map (fun k =>
    |Real.logb 10 (stNew.beta.getD (k + 1) 0 / stOld.beta.getD (k + 1) 0)|)).sum
    / ((stOld.beta.length - 2 : ℕ) : ℝ)

lemma list_sum_eq_range_sum : ∀ l : List ℝ,
    l.sum = ∑ k in Finset.range l.length, l.getD k 0
  | [] => by simp
  | a :: t => by
      rw [List.sum_cons, list_sum_eq_range_sum t, List.length_cons,
        Finset.sum_range_succ']
      simp only [List.getD_cons_succ, List.getD_cons_zero]
      exact add_comm a _

lemma errMap_getD (beta_vec momentum calcb : List ℝ) (nt0 k : ℕ) (h2 : 2 ≤ nt0)
    (hbl : beta_vec.length = nt0) (hml : momentum.length = nt0 - 2)
    (hcl : calcb.length = nt0) (hk : k < nt0 - 2) :
    ((interiorZip beta_vec momentum calcb).map
        (fun p => |Real.logb 10 p.1 - Real.logb 10 p.2.1|)).getD k 0
      = |Real.logb 10 (calcb.getD (1 + k) 0)
          - Real.logb 10 (beta_vec.getD (1 + k) 0)| := by
  have hzlen := interiorZip_length beta_vec momentum calcb nt0 h2 hbl hml hcl
  have hmlen := momNew_length beta_vec momentum calcb nt0 h2 hbl hml hcl
  rw [List.getD_eq_getElem _ _ (by simp only [List.length_map]; omega),
    List.getD_eq_getElem _ _ (by omega), List.getD_eq_getElem _ _ (by omega)]
  simp only [interiorZip, List.getElem_map, List.getElem_zip, List.getElem_take,
    List.getElem_drop]

lemma errOf_eq_sum (beta_vec momentum calcb : List ℝ) (nt0 : ℕ) (h2 : 2 ≤ nt0)
    (hbl : beta_vec.length = nt0) (hml : momentum.length = nt0 - 2)
    (hcl : calcb.length = nt0) :
    errOf beta_vec momentum calcb
      = (∑ k in Finset.range (nt0 - 2),
          |Real.logb 10 (calcb.getD (1 + k) 0)
            - Real.logb 10 (beta_vec.getD (1 + k) 0)|) / (nt0 : ℝ) := by
  have hlen : ((interiorZip beta_vec momentum calcb).map
      (fun p => |Real.logb 10 p.1 - Real.logb 10 p.2.1|)).length = nt0 - 2 := by
    simp only [List.length_map]
    exact interiorZip_length beta_vec momentum calcb nt0 h2 hbl hml hcl
  simp only [errOf]
  rw [list_sum_eq_range_sum, hlen, hbl]
  congr 1
  apply Finset.sum_congr rfl
  intro k hk
  exact errMap_getD beta_vec momentum calcb nt0 k h2 hbl hml hcl
    (Finset.mem_range.1 hk)

lemma calcOf_length (ns nc : ℕ) (runs : List (ℕ × List (ℕ × ℕ)))
    (beta_vec : List ℝ) (h1 : 1 ≤ beta_vec.length) :
    (calcOf ns nc runs beta_vec).length = beta_vec.length := by
  simp only [calcOf]
  rw [calc_beta_divs_length]
  omega

/-- C9 (amended): on every iteration of pt_optimize_beta that is not skipped
(the loop has not already broken and the η normalization z is not below
f32::EPSILON), the reported err equals the sum over the T−2 interior β
points of |log₁₀ β_calc − log₁₀ β_prev| divided by T — where β_calc is the
freshly CALCULATED inverse-CDF value (before the momentum mix), not the β
value actually written to the new state, and the divisor is T, not T−2 —
and the loop breaks exactly when this err is below 2·10⁻². -/
theorem C9_err_formula_and_break (ns nc : ℕ) (alpha : ℝ)
    (runs : List (ℕ × List (ℕ × ℕ))) (st : OptState) (nt0 : ℕ)
    (h2 : 2 ≤ nt0) (hbl : st.beta.length = nt0)
    (hml : st.momentum.length = nt0 - 2) (hbroke : st.broke = false)
    (hz : ¬ (unnorm_eta_t ns nc st.beta runs).sum < f32Eps) :
    (optIter ns nc alpha runs st).2
      = some ((∑ k in Finset.range (nt0 - 2),
          |Real.logb 10 ((calcOf ns nc runs st.beta).getD (1 + k) 0)
            - Real.logb 10 (st.beta.getD (1 + k) 0)|) / (nt0 : ℝ)) ∧
    ((optIter ns nc alpha runs st).1.broke = true ↔
      (∑ k in Finset.range (nt0 - 2),
          |Real.logb 10 ((calcOf ns nc runs st.beta).getD (1 + k) 0)
            - Real.logb 10 (st.beta.getD (1 + k) 0)|) / (nt0 : ℝ)
        < (2e-2 : ℝ)) := by
  have hcl : (calcOf ns nc runs st.beta).length = nt0 := by
    rw [calcOf_length ns nc runs st.beta (by omega)]
    exact hbl
  have herr : (betaUpdate alpha st.beta st.momentum
      (calcOf ns nc runs st.beta)).2.2
      = (∑ k in Finset.range (nt0 - 2),
          |Real.logb 10 ((calcOf ns nc runs st.beta).getD (1 + k) 0)
            - Real.logb 10 (st.beta.getD (1 + k) 0)|) / (nt0 : ℝ) := by
    rw [betaUpdate_def]
    exact errOf_eq_sum st.beta st.momentum (calcOf ns nc runs st.beta) nt0 h2
      hbl hml hcl
  simp only [optIter, hbroke, Bool.false_eq_true, if_false, if_neg hz]
  constructor
  · rw [herr]
  · rw [herr]
    by_cases hb : (∑ k in Finset.range (nt0 - 2),
        |Real.logb 10 ((calcOf ns nc runs st.beta).getD (1 + k) 0)
          - Real.logb 10 (st.beta.getD (1 + k) 0)|) / (nt0 : ℝ) < (2e-2 : ℝ)
    · simp [hb]
    · simp [hb]

/-- The concrete β ladder of the C9 counterexample. -/
def c9beta : List ℝ := [1, 4, 5]

/-- The concrete oracle data of the C9 counterexample: one instance whose
PT run made 9 round trips with diffusion histogram rows (31,1), (22,10),
(18,14). -/
def c9runs : List (ℕ × List (ℕ × ℕ)) := [(9, [(31, 1), (22, 10), (18, 14)])]

/-- The optimizer state after 0 iterations on `c9beta`. -/
def c9st : OptState := ⟨c9beta, [4], false⟩

lemma c9_eta : unnorm_eta_t 3 1 c9beta c9runs = [1/4, 3/8] := by
  have hs16 : Real.sqrt 16 = 4 := by
    rw [show (16 : ℝ) = 4^2 by norm_num, Real.sqrt_sq (by norm_num)]
  have hs4 : Real.sqrt 4 = 2 := by
    rw [show (4 : ℝ) = 2^2 by norm_num, Real.sqrt_sq (by norm_num)]
  have hw : weighted_d_dif 3 1 c9beta c9runs = [3/32, 1/8, 1/8] := by
    rw [weighted_d_dif,
      show List.replicate c9beta.length (0 : ℝ) = [0, 0, 0] from rfl]
    norm_num [c9runs, c9beta, tau_of, dif_probs, finite_differences,
      List.range_succ, List.getD]
  have hsw : stepwiseWeights c9beta = [3/2, 2, 1/2] := by
    norm_num [stepwiseWeights, c9beta, List.range_succ, List.getD]
  simp only [unnorm_eta_t]
  rw [hw, hsw]
  norm_num [hs16, hs4]

lemma c9_ecdf : eta_cdf_of (5/8) [1/4, 3/8] = [0, 2/5, 1] := by
  norm_num [eta_cdf_of, List.range_succ]

/-- The CDF being inverted in the counterexample iteration, exactly as it
appears inside calc_beta_divs. -/
def c9F : ℝ → ℝ := fun x =>
  interp c9beta [0, 2/5, 1]
    (c9beta.getD 0 0 + x * (c9beta.getD (c9beta.length - 1) 0 - c9beta.getD 0 0))

lemma c9_calc_step : calc_beta_divs c9beta [0, 2/5, 1]
    = (monotonic_divisions c9F (c9beta.length - 1)).map
        (fun x => x * (c9beta.getD (c9beta.length - 1) 0 - c9beta.getD 0 0)
          + c9beta.getD 0 0) := rfl

lemma c9F_eval (x : ℝ) : c9F x = interp [1, 4, 5] [0, 2/5, 1] (1 + x * 4) := by
  simp [c9F, c9beta]
  norm_num

lemma c9_mdPoint : mdPoint c9F 2 1 = 19/24 := by
  unfold mdPoint
  rw [if_neg one_ne_zero, if_neg (by omega)]
  apply IsLeast.csInf_eq
  constructor
  · apply Set.mem_union_left
    refine ⟨⟨by norm_num, by norm_num⟩, ?_⟩
    rw [c9F_eval]
    norm_num [interp]
  · intro y hy
    rcases hy with ⟨⟨hy0, hy1⟩, hfy⟩ | hy2
    · rw [c9F_eval] at hfy
      by_contra hlt
      push_neg at hlt
      simp only [interp] at hfy
      push_cast at hfy
      split_ifs at hfy <;> try linarith
    · rw [Set.mem_singleton_iff.1 hy2]
      norm_num

lemma c9_calc : calc_beta_divs c9beta [0, 2/5, 1] = [1, 25/6, 5] := by
  rw [c9_calc_step]
  have hlen : c9beta.length - 1 = 2 := by simp [c9beta]
  rw [hlen]
  rw [show monotonic_divisions c9F 2
      = [mdPoint c9F 2 0, mdPoint c9F 2 1, mdPoint c9F 2 2] from by
    simp [monotonic_divisions, List.range_succ]]
  rw [mdPoint_zero, mdPoint_last c9F 2 (by norm_num), c9_mdPoint]
  norm_num [c9beta]

lemma c9_calcOf : calcOf 3 1 c9runs c9beta = [1, 25/6, 5] := by
  simp only [calcOf]
  rw [c9_eta, show ([(1:ℝ)/4, 3/8]).sum = 5/8 by norm_num, c9_ecdf, c9_calc]

lemma c9_z_not_small : ¬ (unnorm_eta_t 3 1 c9st.beta c9runs).sum < f32Eps := by
  rw [show c9st.beta = c9beta from rfl, c9_eta]
  norm_num [f32Eps]

lemma c9_logb_pos : 0 < Real.logb 10 (25/24) :=
  Real.logb_pos (by norm_num) (by norm_num)

lemma c9_abs_err : |Real.logb 10 (25/6) - Real.logb 10 4|
    = Real.logb 10 (25/24) := by
  have h : Real.logb 10 ((25 : ℝ)/6) - Real.logb 10 4
      = Real.logb 10 (25/24) := by
    rw [← Real.logb_div (by norm_num) (by norm_num)]
    norm_num
  rw [h, abs_of_pos c9_logb_pos]

lemma c9_errOf : errOf c9beta [4] [1, 25/6, 5] = Real.logb 10 (25/24) / 3 := by
  simp only [errOf, interiorZip, momNew, c9beta]
  norm_num [c9_abs_err]

lemma c9_optIter_snd : (optIter 3 1 (alphaOf 1 0) c9runs c9st).2
    = some (Real.logb 10 (25/24) / 3) := by
  simp only [optIter, show c9st.broke = false from rfl, Bool.false_eq_true,
    if_false, if_neg c9_z_not_small]
  rw [show c9st.beta = c9beta from rfl, show c9st.momentum = [(4:ℝ)] from rfl,
    c9_calcOf, betaUpdate_def, c9_errOf]

lemma c9_newbeta : (optIter 3 1 (alphaOf 1 0) c9runs c9st).1.beta
    = [1, Real.exp (alphaOf 1 0
          * Real.log (Real.exp (0.85 * Real.log 4 + 0.15 * Real.log (25/6)))
        + (1 - alphaOf 1 0) * Real.log 4), 5] := by
  simp only [optIter, show c9st.broke = false from rfl, Bool.false_eq_true,
    if_false, if_neg c9_z_not_small]
  rw [show c9st.beta = c9beta from rfl, show c9st.momentum = [(4:ℝ)] from rfl,
    c9_calcOf, betaUpdate_def]
  simp [interiorNew, interiorZip, momNew, c9beta]

lemma c9_claimErr : claimErr c9st (optIter 3 1 (alphaOf 1 0) c9runs c9st).1
    = 0.03 * Real.logb 10 (25/24) := by
  have hlog : Real.log (Real.exp (alphaOf 1 0
        * Real.log (Real.exp (0.85 * Real.log 4 + 0.15 * Real.log (25/6)))
      + (1 - alphaOf 1 0) * Real.log 4) / 4) = 0.03 * Real.log (25/24) := by
    rw [Real.log_div (ne_of_gt (Real.exp_pos _)) (by norm_num), Real.log_exp,
      Real.log_exp, alphaOf_eq]
    rw [show Real.log ((25:ℝ)/6) = Real.log (25/24) + Real.log 4 from by
      rw [← Real.log_mul (by norm_num) (by norm_num)]
      norm_num]
    ring
  have hlogb : Real.logb 10 (Real.exp (alphaOf 1 0
        * Real.log (Real.exp (0.85 * Real.log 4 + 0.15 * Real.log (25/6)))
      + (1 - alphaOf 1 0) * Real.log 4) / 4) = 0.03 * Real.logb 10 (25/24) := by
    simp only [Real.logb]
    rw [hlog]
    ring
  simp only [claimErr, c9_newbeta]
  rw [show c9st.beta = c9beta from rfl,
    show c9beta.length - 2 = 1 from rfl,
    show List.range 1 = [0] from rfl]
  simp only [c9beta, List.map_cons, List.map_nil, List.sum_cons, List.sum_nil,
    List.getD_cons_succ, List.getD_cons_zero, Nat.cast_one]
  rw [add_zero, div_one, hlogb,
    abs_of_nonneg (mul_nonneg (by norm_num) (le_of_lt c9_logb_pos))]

/-- C9 counterexample: on the β ladder [1,4,5] with concrete PT oracle data
(9 round trips, histogram rows (31,1), (22,10), (18,14)), the first
iteration of pt_optimize_beta reports err = log₁₀(25/24)/3 — the interior
log-ratio of the CALCULATED β (25/6) to the previous β (4), divided by
T = 3 — while the claim's value, the mean over the T−2 = 1 interior points
of |log₁₀(β_new/β_prev)| computed from the β value actually written to the
new state, is 0.03·log₁₀(25/24). The two differ. -/
theorem C9_counterexample_err_mismatch :
    pt_optimize_beta 3 1 1 (fun _ => c9runs) c9beta 0 = c9st ∧
    (optIter 3 1 (alphaOf 1 0) c9runs c9st).2
      = some (Real.logb 10 (25/24) / 3) ∧
    claimErr c9st (optIter 3 1 (alphaOf 1 0) c9runs c9st).1
      = 0.03 * Real.logb 10 (25/24) ∧
    Real.logb 10 (25/24) / 3 ≠ 0.03 * Real.logb 10 (25/24) :=
  ⟨rfl, c9_optIter_snd, c9_claimErr, by
    intro h
    have hp := c9_logb_pos
    linarith⟩

/-- C9 witness: the amended err/break characterization applied to the
concrete first iteration on the ladder [1,4,5] with the concrete oracle
data. -/
theorem C9_err_formula_and_break_witness :
    (optIter 3 1 (alphaOf 1 0) c9runs c9st).2
      = some ((∑ k in Finset.range (3 - 2),
          |Real.logb 10 ((calcOf 3 1 c9runs c9st.beta).getD (1 + k) 0)
            - Real.logb 10 (c9st.beta.getD (1 + k) 0)|) / ((3 : ℕ) : ℝ)) ∧
    ((optIter 3 1 (alphaOf 1 0) c9runs c9st).1.broke = true ↔
      (∑ k in Finset.range (3 - 2),
          |Real.logb 10 ((calcOf 3 1 c9runs c9st.beta).getD (1 + k) 0)
            - Real.logb 10 (c9st.beta.getD (1 + k) 0)|) / ((3 : ℕ) : ℝ)
        < (2e-2 : ℝ)) :=
  C9_err_formula_and_break 3 1 (alphaOf 1 0) c9runs c9st 3 (by norm_num) rfl rfl
    rfl (by
      rw [show c9st.beta = c9beta from rfl, c9_eta]
      norm_num [f32Eps])

end C9Model

end Tamc
